import Mathlib

/-!
Shallow embedding of vpr/src/timing/slack_evaluation.cpp (VTR).

Modelling conventions:
* tatum time values (C++ float) are rationals; the aggregation, minimum and
  maximum logic of the source only compares, so this is faithful on the
  finite, non-NaN values the source asserts for slack tags
  (VTR_ASSERT_SAFE_MSG at slack_evaluation.cpp:117-118).
* NaN (the constructor's array fill) and +infinity (the no-tag slack) are
  the extra FVal constructors; arithmetic never runs on them in the source.
* std::map<DomainPair, float> with operator== (value equality) is Finmap.
* The VPR_USE_TBB build toggle only parallelizes loops writing disjoint
  slots; the sequential #else branches are modelled.
* VTR_ASSERT (on in all builds) is modelled as Option failure (none).
  VTR_ASSERT_SAFE is compiled out of release builds and an invalid pin id
  would index a dense array out of range (undefined behaviour), so the
  setup-side per-node writes model the unmapped-node case as a skip and
  every theorem below assumes the mapping is total on the nodes it touches.
-/

/-- A (launch clock domain, capture clock domain) aggregation key,
`DomainPair` in the source. -/
structure DomainPair where
  launch : Nat
  capture : Nat
deriving DecidableEq

/-- A timing tag: a time value plus the tag's launch/capture clock domains
(tatum tags expose launch_clock_domain(), capture_clock_domain(), time()). -/
structure TimingTag where
  launch : Nat
  capture : Nat
  time : ℚ

/-- `DomainPair(tag.launch_clock_domain(), tag.capture_clock_domain())`. -/
def TimingTag.domain_pair (t : TimingTag) : DomainPair :=
  ⟨t.launch, t.capture⟩

/-- `std::map<DomainPair, float>` compared with operator== (value equality). -/
abbrev DPMap := Finmap (fun _ : DomainPair => ℚ)

/-- The external timing graph: all nodes, and the logical-output nodes. -/
structure TimingGraph where
  nodes : List Nat
  logical_outputs : List Nat

/-- The external setup analyzer: per-node setup-slack tags, per-node
DATA_REQUIRED tags (`setup_tags(node, TagType::DATA_REQUIRED)`), and the
modified-node set of the current iteration. -/
structure SetupTimingAnalyzer where
  setup_slacks : Nat → List TimingTag
  setup_required_tags : Nat → List TimingTag
  modified_nodes : List Nat

/-- The external hold analyzer: per-node hold-slack tags. -/
structure HoldTimingAnalyzer where
  hold_slacks : Nat → List TimingTag

/-- The external node↔pin lookup; both directions are partial
(an AtomPinId / tatum NodeId may be the invalid id, modelled as none). -/
structure AtomLookup where
  tnode_atom_pin : Nat → Option Nat
  atom_pin_tnode : Nat → Option Nat

/-- The external netlist: its pin ids. -/
structure AtomNetlist where
  pins : List Nat

/-- A stored per-pin float: NaN (constructor fill), +infinity (no tags),
or a finite value. -/
inductive FVal where
  | nan
  | inf
  | val (q : ℚ)
deriving DecidableEq

/-- Point update of a dense pin-indexed array (`pin_slacks_[pin] = v`). -/
def updFn (f : Nat → FVal) (p : Nat) (v : FVal) : Nat → FVal :=
  fun q => if q = p then v else f q

/-- `find_minimum_tag`: the tag with the least time value (first such, as
std::min_element), none for an empty collection. -/
def find_minimum_tag (tags : List TimingTag) : Option TimingTag :=
  tags.foldl
    (fun acc t =>
      match acc with
      | none => some t
      | some m => if t.time < m.time then some t else some m)
    none

/-- `nodes_to_pins` (slack_evaluation.cpp:14-21): pushes
`atom_lookup.tnode_atom_pin(node)` for every node, with NO validity check,
so a node with no mapped pin contributes the invalid id (none). -/
def nodes_to_pins (nodes : List Nat) (atom_lookup : AtomLookup) : List (Option Nat) :=
  nodes.map atom_lookup.tnode_atom_pin

/-! ## SetupSlackCrit -/

/-- The mutable state of `SetupSlackCrit`. -/
structure SetupSlackCrit where
  pin_slacks : Nat → FVal
  pin_criticalities : Nat → FVal
  pins_with_modified_slacks : List (Option Nat)
  pins_with_modified_criticalities : List (Option Nat)
  prev_max_req : DPMap
  prev_worst_slack : DPMap

/-- The constructor: both arrays filled with NaN, empty modified sets and
empty previous aggregates. -/
def SetupSlackCrit.init : SetupSlackCrit :=
  ⟨fun _ => FVal.nan, fun _ => FVal.nan, [], [], ∅, ∅⟩

/-- The slack value `update_pin_slack` stores for a node: the minimum
setup-slack tag time, or +infinity when the node has no tags. -/
def setup_slack_val (analyzer : SetupTimingAnalyzer) (node : Nat) : FVal :=
  match find_minimum_tag (analyzer.setup_slacks node) with
  | some t => FVal.val t.time
  | none => FVal.inf

/-- `SetupSlackCrit::update_pin_slack` (lines 82-96). The unmapped-node case
is the VTR_ASSERT_SAFE(pin) / undefined-behaviour case, modelled as a skip
(see the header comment). -/
def SetupSlackCrit.update_pin_slack (st : SetupSlackCrit) (node : Nat)
    (analyzer : SetupTimingAnalyzer) (lk : AtomLookup) : SetupSlackCrit :=
  match lk.tnode_atom_pin node with
  | none => st
  | some pin =>
      { st with pin_slacks := updFn st.pin_slacks pin (setup_slack_val analyzer node) }

/-- `SetupSlackCrit::update_slacks` (lines 63-80): update_pin_slack on every
modified node, then replace the modified-slack pin record. -/
def SetupSlackCrit.update_slacks (st : SetupSlackCrit)
    (analyzer : SetupTimingAnalyzer) (lk : AtomLookup) : SetupSlackCrit :=
  let st1 := analyzer.modified_nodes.foldl
    (fun s node => s.update_pin_slack node analyzer lk) st
  { st1 with pins_with_modified_slacks := nodes_to_pins analyzer.modified_nodes lk }

/-- One node's contribution to `max_req` (lines 103-110):
`if (!max_req.count(dp) || max_req[dp] < req) max_req[dp] = req`. -/
def max_req_fold (m : DPMap) (tags : List TimingTag) : DPMap :=
  tags.foldl
    (fun m tag =>
      match m.lookup tag.domain_pair with
      | none => m.insert tag.domain_pair tag.time
      | some cur => if cur < tag.time then m.insert tag.domain_pair tag.time else m)
    m

/-- One node's contribution to `worst_slack` (lines 112-123):
`if (!worst_slack.count(dp) || slack < worst_slack[dp]) worst_slack[dp] = slack`. -/
def worst_slack_fold (m : DPMap) (tags : List TimingTag) : DPMap :=
  tags.foldl
    (fun m tag =>
      match m.lookup tag.domain_pair with
      | none => m.insert tag.domain_pair tag.time
      | some cur => if tag.time < cur then m.insert tag.domain_pair tag.time else m)
    m

/-- Step 1 of `update_criticalities` (lines 100-124), max_req side. The
source fills both maps in one pass over the logical outputs; the two
accumulations never interact, so they are modelled as two folds. -/
def compute_max_req (g : TimingGraph) (analyzer : SetupTimingAnalyzer) : DPMap :=
  g.logical_outputs.foldl
    (fun m node => max_req_fold m (analyzer.setup_required_tags node)) ∅

/-- Step 1 of `update_criticalities` (lines 100-124), worst_slack side. -/
def compute_worst_slack (g : TimingGraph) (analyzer : SetupTimingAnalyzer) : DPMap :=
  g.logical_outputs.foldl
    (fun m node => worst_slack_fold m (analyzer.setup_slacks node)) ∅

/-- Modelled from the spec: the source's `calc_relaxed_criticality` lives in
timing_util.cpp, which is not among the given sources; only its call site
(slack_evaluation.cpp:179-185) is. Spec section 4.2 step 3 and the glossary
describe it: for each setup-slack tag a per-domain-pair criticality
normalized with the domain pair's `worst_slack` as basis (criticality rises
toward 1 as the tag's slack approaches the domain pair's worst slack, toward
0 as it is far from critical, with `max_required` bounding the scale); the
node's criticality is the maximum over all its tags. -/
def calc_relaxed_criticality (max_req worst_slack : DPMap)
    (tags : List TimingTag) : ℚ :=
  tags.foldl
    (fun crit tag =>
      let r := (max_req.lookup tag.domain_pair).getD 0
      let w := (worst_slack.lookup tag.domain_pair).getD 0
      max crit (1 - (tag.time - w) / (r - w)))
    0

/-- The loop body shared by the two branches of `update_criticalities`
(lines 140-144 and 164-168): look the pin up and store the node's relaxed
criticality (unmapped node: VTR_ASSERT_SAFE, modelled as a skip). -/
def SetupSlackCrit.write_crit (st : SetupSlackCrit) (node : Nat)
    (analyzer : SetupTimingAnalyzer) (lk : AtomLookup) (mr ws : DPMap) :
    SetupSlackCrit :=
  match lk.tnode_atom_pin node with
  | none => st
  | some pin =>
      let c := calc_relaxed_criticality mr ws (analyzer.setup_slacks node)
      { st with pin_criticalities := updFn st.pin_criticalities pin (FVal.val c) }

/-- `SetupSlackCrit::update_criticalities` (lines 98-177). The two C++
branches run the same per-node write and record, over
`analyzer.modified_nodes()` when both fresh aggregates equal the stored ones
and over `timing_graph.nodes()` otherwise; the fresh aggregates are stored
unconditionally at the end (lines 175-176). -/
def SetupSlackCrit.update_criticalities (st : SetupSlackCrit) (g : TimingGraph)
    (analyzer : SetupTimingAnalyzer) (lk : AtomLookup) : SetupSlackCrit :=
  let mr := compute_max_req g analyzer
  let ws := compute_worst_slack g analyzer
  let nodes := if mr = st.prev_max_req ∧ ws = st.prev_worst_slack
               then analyzer.modified_nodes else g.nodes
  let st1 := nodes.foldl (fun s node => s.write_crit node analyzer lk mr ws) st
  { st1 with
    pins_with_modified_criticalities := nodes_to_pins nodes lk,
    prev_max_req := mr,
    prev_worst_slack := ws }

/-- `SetupSlackCrit::update_slacks_and_criticalities` (lines 51-61),
sequential branch: slacks then criticalities (they read only the analyzer
and write disjoint state). -/
def SetupSlackCrit.update_slacks_and_criticalities (st : SetupSlackCrit)
    (g : TimingGraph) (analyzer : SetupTimingAnalyzer) (lk : AtomLookup) :
    SetupSlackCrit :=
  (st.update_slacks analyzer lk).update_criticalities g analyzer lk

/-! ## HoldSlackCrit -/

/-- The mutable state of `HoldSlackCrit`. -/
structure HoldSlackCrit where
  pin_slacks : Nat → FVal
  pin_criticalities : Nat → FVal

/-- The constructor: both arrays filled with NaN. -/
def HoldSlackCrit.init : HoldSlackCrit :=
  ⟨fun _ => FVal.nan, fun _ => FVal.nan⟩

/-- The slack value `HoldSlackCrit::update_pin_slack` stores for a node. -/
def hold_slack_val (analyzer : HoldTimingAnalyzer) (node : Nat) : FVal :=
  match find_minimum_tag (analyzer.hold_slacks node) with
  | some t => FVal.val t.time
  | none => FVal.inf

/-- `HoldSlackCrit::update_pin_slack` (lines 224-238): VTR_ASSERT(node) is a
fatal failure (none) when the pin has no timing node. -/
def HoldSlackCrit.update_pin_slack (st : HoldSlackCrit) (pin : Nat)
    (analyzer : HoldTimingAnalyzer) (lk : AtomLookup) : Option HoldSlackCrit :=
  match lk.atom_pin_tnode pin with
  | none => none
  | some node =>
      some { st with pin_slacks := updFn st.pin_slacks pin (hold_slack_val analyzer node) }

/-- The loop of `HoldSlackCrit::update_slacks` (lines 218-222) over the
netlist's pins, propagating the assertion failure. -/
def hold_slacks_loop (netpins : List Nat) (st : HoldSlackCrit)
    (analyzer : HoldTimingAnalyzer) (lk : AtomLookup) : Option HoldSlackCrit :=
  match netpins with
  | [] => some st
  | p :: ps =>
      match st.update_pin_slack p analyzer lk with
      | none => none
      | some st1 => hold_slacks_loop ps st1 analyzer lk

/-- `HoldSlackCrit::update_slacks` (lines 218-222). -/
def HoldSlackCrit.update_slacks (st : HoldSlackCrit) (netlist : AtomNetlist)
    (analyzer : HoldTimingAnalyzer) (lk : AtomLookup) : Option HoldSlackCrit :=
  hold_slacks_loop netlist.pins st analyzer lk

/-- Every hold-slack tag time of every graph node, in the scan order of
lines 245-251. -/
def all_hold_slacks (g : TimingGraph) (analyzer : HoldTimingAnalyzer) : List ℚ :=
  g.nodes.flatMap (fun n => (analyzer.hold_slacks n).map TimingTag.time)

/-- `HoldSlackCrit::calc_pin_criticality` (lines 272-293): VTR_ASSERT(node),
the running maximum over the node's hold-slack tags of
`1 - scale * (slack + shift)` starting from 0, and the two range
VTR_ASSERTs, all assertion failures modelled as none. -/
def HoldSlackCrit.calc_pin_criticality (pin : Nat)
    (analyzer : HoldTimingAnalyzer) (lk : AtomLookup) (scale shift : ℚ) :
    Option ℚ :=
  match lk.atom_pin_tnode pin with
  | none => none
  | some node =>
      let criticality := (analyzer.hold_slacks node).foldl
        (fun crit tag => max crit (1 - scale * (tag.time + shift))) 0
      if 0 ≤ criticality ∧ criticality ≤ 1 then some criticality else none

/-- The per-pin loop of `HoldSlackCrit::update_criticalities`
(lines 259-269). -/
def hold_crit_loop (netpins : List Nat) (st : HoldSlackCrit)
    (analyzer : HoldTimingAnalyzer) (lk : AtomLookup) (scale shift : ℚ) :
    Option HoldSlackCrit :=
  match netpins with
  | [] => some st
  | p :: ps =>
      match HoldSlackCrit.calc_pin_criticality p analyzer lk scale shift with
      | none => none
      | some c =>
          hold_crit_loop ps
            { st with pin_criticalities := updFn st.pin_criticalities p (FVal.val c) }
            analyzer lk scale shift

/-- The per-pin loop in the no-tags case (see update_criticalities below):
every valid pin ends at criticality 0. -/
def hold_crit_empty_loop (netpins : List Nat) (st : HoldSlackCrit)
    (lk : AtomLookup) : Option HoldSlackCrit :=
  match netpins with
  | [] => some st
  | p :: ps =>
      match lk.atom_pin_tnode p with
      | none => none
      | some _ =>
          hold_crit_empty_loop ps
            { st with pin_criticalities := updFn st.pin_criticalities p (FVal.val 0) }
            lk

/-- `HoldSlackCrit::update_criticalities` (lines 240-270). worst_slack /
best_slack start at plus/minus infinity and fold min/max over every graph
node's hold-slack tag times; with at least one tag they are the minimum and
maximum of `all_hold_slacks`, and `scale = 1/|best - worst|`,
`shift = -worst` (under the rational model the degenerate best = worst case
takes 1/0 = 0; the spec flags that case as undefined, sections 4.4 and 9,
and no theorem below depends on it). With no tag anywhere, in the source
worst stays +infinity and best -infinity, so scale = 1/infinity = 0.0 and
shift = -infinity; every tag criticality is then the float 0.0 * -infinity
= NaN, of which std::max keeps the running 0, so every valid pin ends at
criticality 0 — modelled directly by hold_crit_empty_loop. -/
def HoldSlackCrit.update_criticalities (st : HoldSlackCrit) (g : TimingGraph)
    (netlist : AtomNetlist) (analyzer : HoldTimingAnalyzer) (lk : AtomLookup) :
    Option HoldSlackCrit :=
  match all_hold_slacks g analyzer with
  | [] => hold_crit_empty_loop netlist.pins st lk
  | s :: rest =>
      let worst := rest.foldl min s
      let best := rest.foldl max s
      let scale := 1 / |best - worst|
      let shift := -worst
      hold_crit_loop netlist.pins st analyzer lk scale shift

/-- `HoldSlackCrit::update_slacks_and_criticalities` (lines 206-216),
sequential branch. -/
def HoldSlackCrit.update_slacks_and_criticalities (st : HoldSlackCrit)
    (g : TimingGraph) (netlist : AtomNetlist) (analyzer : HoldTimingAnalyzer)
    (lk : AtomLookup) : Option HoldSlackCrit :=
  match st.update_slacks netlist analyzer lk with
  | none => none
  | some st1 => st1.update_criticalities g netlist analyzer lk

/-! ## Helper definitions for the verification -/

/-- The pin-array effect of a loop that maps each node to its pin and
stores `v node` there, skipping unmapped nodes. -/
def writes (lk : Nat → Option Nat) (v : Nat → FVal) (nodes : List Nat)
    (f : Nat → FVal) : Nat → FVal :=
  nodes.foldl
    (fun g n =>
      match lk n with
      | none => g
      | some p => updFn g p (v n))
    f

/-- The pin-array effect of a loop that stores `v p` at every pin `p`. -/
def pwrites (v : Nat → FVal) (netpins : List Nat) (f : Nat → FVal) : Nat → FVal :=
  netpins.foldl (fun g p => updFn g p (v p)) f

/-- The hold slack stored for a pin (meaningful when the pin has a node). -/
def hold_pin_slack_val (analyzer : HoldTimingAnalyzer) (lk : AtomLookup)
    (p : Nat) : FVal :=
  match lk.atom_pin_tnode p with
  | none => FVal.nan
  | some node => hold_slack_val analyzer node

/-- The hold criticality stored for a pin (meaningful when
calc_pin_criticality succeeds). -/
def hold_pin_crit_val (analyzer : HoldTimingAnalyzer) (lk : AtomLookup)
    (scale shift : ℚ) (p : Nat) : FVal :=
  match HoldSlackCrit.calc_pin_criticality p analyzer lk scale shift with
  | none => FVal.nan
  | some c => FVal.val c

/-- Running maximum of a list of times on top of an optional seed. -/
def ofoldMax (o : Option ℚ) (l : List ℚ) : Option ℚ :=
  l.foldl
    (fun acc x =>
      match acc with
      | none => some x
      | some a => some (max a x))
    o

/-- Running minimum of a list of times on top of an optional seed. -/
def ofoldMin (o : Option ℚ) (l : List ℚ) : Option ℚ :=
  l.foldl
    (fun acc x =>
      match acc with
      | none => some x
      | some a => some (min a x))
    o

/-- All DATA_REQUIRED tag times with a given domain pair, over the logical
outputs, in scan order. -/
def req_times (g : TimingGraph) (analyzer : SetupTimingAnalyzer)
    (dp : DomainPair) : List ℚ :=
  g.logical_outputs.flatMap
    (fun n => ((analyzer.setup_required_tags n).filter
      (fun t => t.domain_pair = dp)).map TimingTag.time)

/-- All setup-slack tag times with a given domain pair, over the logical
outputs, in scan order. -/
def slack_times (g : TimingGraph) (analyzer : SetupTimingAnalyzer)
    (dp : DomainPair) : List ℚ :=
  g.logical_outputs.flatMap
    (fun n => ((analyzer.setup_slacks n).filter
      (fun t => t.domain_pair = dp)).map TimingTag.time)

/-- A stored per-pin value that is a finite criticality in [0, 1]. -/
def inRange01 (v : FVal) : Prop :=
  ∃ q : ℚ, v = FVal.val q ∧ 0 ≤ q ∧ q ≤ 1

/-- The running maximum of hold tag criticalities
(the loop body of HoldSlackCrit::calc_pin_criticality). -/
def hold_crit_formula (scale shift : ℚ) (tags : List TimingTag) : ℚ :=
  tags.foldl (fun crit tag => max crit (1 - scale * (tag.time + shift))) 0

/-- Consistency of a setup-slack tag with the aggregates: its domain pair is
keyed in both maps, its time lies between the domain pair's worst slack and
maximum required time, and those are distinct. These are the facts a real
timing analysis provides and on which the [0, 1] criticality range rests. -/
def valid_setup_tag (mr ws : DPMap) (tag : TimingTag) : Prop :=
  ∃ r w : ℚ, mr.lookup tag.domain_pair = some r ∧ ws.lookup tag.domain_pair = some w ∧
    w ≤ tag.time ∧ tag.time ≤ r ∧ w < r

/-! ## Concrete fixtures for witnesses and counterexamples -/

/-- Identity node↔pin lookup (total in both directions). -/
def wit_lookup_id : AtomLookup :=
  ⟨fun n => some n, fun p => some p⟩

/-- A lookup with no mapping at all. -/
def wit_lookup_none : AtomLookup :=
  ⟨fun _ => none, fun _ => none⟩

/-- One-node graph, the node being a logical output. -/
def wit_g_setup : TimingGraph :=
  ⟨[0], [0]⟩

/-- Setup analyzer: node 0 has one slack tag (time 1) and one required tag
(time 2) on domain pair (0, 0); no modified nodes. -/
def wit_an_quiet : SetupTimingAnalyzer :=
  ⟨fun n => if n = 0 then [⟨0, 0, 1⟩] else [],
   fun n => if n = 0 then [⟨0, 0, 2⟩] else [], []⟩

/-- Same tags as wit_an_quiet, node 0 modified. -/
def wit_an_active : SetupTimingAnalyzer :=
  ⟨fun n => if n = 0 then [⟨0, 0, 1⟩] else [],
   fun n => if n = 0 then [⟨0, 0, 2⟩] else [], [0]⟩

/-- Setup analyzer with no tags whose modified set holds the unmapped
node 5. -/
def wit_an_unmapped : SetupTimingAnalyzer :=
  ⟨fun _ => [], fun _ => [], [5]⟩

/-- One-pin netlist. -/
def wit_netlist1 : AtomNetlist :=
  ⟨[0]⟩

/-- Two-node graph for the hold examples. -/
def wit_g_hold : TimingGraph :=
  ⟨[0, 1], []⟩

/-- Hold analyzer of the spec example: hold slacks -2 at node 0 and 3 at
node 1. -/
def wit_an_hold : HoldTimingAnalyzer :=
  ⟨fun n => if n = 0 then [⟨0, 0, -2⟩] else if n = 1 then [⟨0, 0, 3⟩] else []⟩

/-- Two-pin netlist for the hold examples. -/
def wit_netlist_hold : AtomNetlist :=
  ⟨[0, 1]⟩

/-- Three-node graph: node 2 carries no tags. -/
def wit_g_hold3 : TimingGraph :=
  ⟨[0, 1, 2], []⟩

/-- Three-pin netlist matching wit_g_hold3. -/
def wit_netlist_hold3 : AtomNetlist :=
  ⟨[0, 1, 2]⟩

/-! ## Lemmas: point updates and write folds -/

theorem updFn_self (f : Nat → FVal) (p : Nat) (v : FVal) : updFn f p v p = v := by
  simp [updFn]

theorem updFn_other (f : Nat → FVal) (p q : Nat) (v : FVal) (h : q ≠ p) :
    updFn f p v q = f q := by
  simp [updFn, h]

theorem writes_nil (lk : Nat → Option Nat) (v : Nat → FVal) (f : Nat → FVal) :
    writes lk v [] f = f := rfl

theorem writes_cons (lk : Nat → Option Nat) (v : Nat → FVal) (n : Nat)
    (ns : List Nat) (f : Nat → FVal) :
    writes lk v (n :: ns) f =
      writes lk v ns (match lk n with | none => f | some p => updFn f p (v n)) := rfl

/-- A pin no processed node maps to keeps its value. -/
theorem writes_frame (lk : Nat → Option Nat) (v : Nat → FVal) (ns : List Nat)
    (f : Nat → FVal) (p : Nat) (h : ∀ n ∈ ns, lk n ≠ some p) :
    writes lk v ns f p = f p := by
  induction ns generalizing f with
  | nil => rfl
  | cons a l ih =>
      rw [writes_cons]
      rcases ha : lk a with _ | q
      · exact ih f fun n hn => h n (List.mem_cons_of_mem a hn)
      · rw [ih]
        · have hqp : p ≠ q := by
            intro hpq
            exact h a (List.mem_cons_self a l) (by rw [ha, hpq])
          exact updFn_other f q p (v a) hqp
        · exact fun n hn => h n (List.mem_cons_of_mem a hn)

/-- With an injective node-to-pin map, the pin of a processed node ends at
that node's value. -/
theorem writes_mem (lk : Nat → Option Nat) (v : Nat → FVal) (ns : List Nat)
    (f : Nat → FVal) (n p : Nat)
    (hinj : ∀ n1 n2 q, lk n1 = some q → lk n2 = some q → n1 = n2)
    (hn : n ∈ ns) (hp : lk n = some p) :
    writes lk v ns f p = v n := by
  induction ns generalizing f with
  | nil => cases hn
  | cons a l ih =>
      rw [writes_cons]
      by_cases hl : n ∈ l
      · exact ih _ hl
      · have hna : n = a := by
          rcases List.mem_cons.mp hn with h | h
          · exact h
          · exact absurd h hl
        subst hna
        rw [hp]
        rw [writes_frame]
        · exact updFn_self f p (v n)
        · intro m hm hmp
          exact hl (by rw [hinj m n p hmp hp] at hm; exact hm)

theorem pwrites_nil (v : Nat → FVal) (f : Nat → FVal) : pwrites v [] f = f := rfl

theorem pwrites_cons (v : Nat → FVal) (p : Nat) (ps : List Nat) (f : Nat → FVal) :
    pwrites v (p :: ps) f = pwrites v ps (updFn f p (v p)) := rfl

theorem pwrites_frame (v : Nat → FVal) (ps : List Nat) (f : Nat → FVal) (q : Nat)
    (h : q ∉ ps) : pwrites v ps f q = f q := by
  induction ps generalizing f with
  | nil => rfl
  | cons a l ih =>
      rw [pwrites_cons, ih _ fun hl => h (List.mem_cons_of_mem a hl)]
      exact updFn_other f a q (v a) fun hq => h (hq ▸ List.mem_cons_self a l)

theorem pwrites_mem (v : Nat → FVal) (ps : List Nat) (f : Nat → FVal) (q : Nat)
    (h : q ∈ ps) : pwrites v ps f q = v q := by
  induction ps generalizing f with
  | nil => cases h
  | cons a l ih =>
      rw [pwrites_cons]
      by_cases hl : q ∈ l
      · exact ih _ hl
      · have hqa : q = a := by
          rcases List.mem_cons.mp h with h1 | h1
          · exact h1
          · exact absurd h1 hl
        subst hqa
        rw [pwrites_frame v l _ q hl]
        exact updFn_self f q (v q)

/-! ## Lemmas: state-level shape of the update functions -/

/-- The slack loop of SetupSlackCrit::update_slacks only rewrites the slack
array, as a write fold. -/
theorem setup_slack_fold_eq (analyzer : SetupTimingAnalyzer) (lk : AtomLookup)
    (ns : List Nat) (st : SetupSlackCrit) :
    ns.foldl (fun s node => s.update_pin_slack node analyzer lk) st =
      { st with pin_slacks :=
          writes lk.tnode_atom_pin (setup_slack_val analyzer) ns st.pin_slacks } := by
  induction ns generalizing st with
  | nil => rfl
  | cons a l ih =>
      rw [List.foldl_cons, writes_cons]
      rw [ih]
      cases st
      unfold SetupSlackCrit.update_pin_slack
      rcases ha : lk.tnode_atom_pin a with _ | p <;> simp

/-- SetupSlackCrit::update_slacks: slack array written along the modified
nodes, modified-slack pins replaced by the raw pin projection, everything
else untouched. -/
theorem update_slacks_spec (st : SetupSlackCrit) (analyzer : SetupTimingAnalyzer)
    (lk : AtomLookup) :
    st.update_slacks analyzer lk =
      { st with
        pin_slacks := writes lk.tnode_atom_pin (setup_slack_val analyzer)
          analyzer.modified_nodes st.pin_slacks,
        pins_with_modified_slacks := nodes_to_pins analyzer.modified_nodes lk } := by
  unfold SetupSlackCrit.update_slacks
  rw [setup_slack_fold_eq]

/-- The criticality loop of SetupSlackCrit::update_criticalities only
rewrites the criticality array, as a write fold. -/
theorem setup_crit_fold_eq (analyzer : SetupTimingAnalyzer) (lk : AtomLookup)
    (mr ws : DPMap) (ns : List Nat) (st : SetupSlackCrit) :
    ns.foldl (fun s node => s.write_crit node analyzer lk mr ws) st =
      { st with pin_criticalities := (writes lk.tnode_atom_pin
          (fun n => FVal.val (calc_relaxed_criticality mr ws (analyzer.setup_slacks n)))
          ns st.pin_criticalities) } := by
  induction ns generalizing st with
  | nil => rfl
  | cons a l ih =>
      rw [List.foldl_cons, writes_cons]
      rw [ih]
      cases st
      unfold SetupSlackCrit.write_crit
      rcases ha : lk.tnode_atom_pin a with _ | p <;> simp

/-- SetupSlackCrit::update_criticalities: the processed node range is the
modified set exactly when both fresh aggregates equal the stored ones; the
criticality array is written along it, the modified-criticality pins are its
raw projection, and the fresh aggregates are stored. -/
theorem update_criticalities_spec (st : SetupSlackCrit) (g : TimingGraph)
    (analyzer : SetupTimingAnalyzer) (lk : AtomLookup) :
    st.update_criticalities g analyzer lk =
      { st with
        pin_criticalities := (writes lk.tnode_atom_pin
          (fun n => FVal.val (calc_relaxed_criticality (compute_max_req g analyzer)
            (compute_worst_slack g analyzer) (analyzer.setup_slacks n)))
          (if compute_max_req g analyzer = st.prev_max_req ∧
              compute_worst_slack g analyzer = st.prev_worst_slack
           then analyzer.modified_nodes else g.nodes)
          st.pin_criticalities),
        pins_with_modified_criticalities := (nodes_to_pins
          (if compute_max_req g analyzer = st.prev_max_req ∧
              compute_worst_slack g analyzer = st.prev_worst_slack
           then analyzer.modified_nodes else g.nodes) lk),
        prev_max_req := compute_max_req g analyzer,
        prev_worst_slack := compute_worst_slack g analyzer } := by
  simp only [SetupSlackCrit.update_criticalities, setup_crit_fold_eq]

/-! ## Lemmas: hold-side loops -/

/-- HoldSlackCrit::update_slacks dies on the VTR_ASSERT as soon as some
netlist pin has no timing node. -/
theorem hold_slacks_loop_none (analyzer : HoldTimingAnalyzer) (lk : AtomLookup)
    (ps : List Nat) (st : HoldSlackCrit) (p : Nat) (hp : p ∈ ps)
    (hnone : lk.atom_pin_tnode p = none) :
    hold_slacks_loop ps st analyzer lk = none := by
  induction ps generalizing st with
  | nil => cases hp
  | cons a l ih =>
      show (match st.update_pin_slack a analyzer lk with
        | none => none
        | some st1 => hold_slacks_loop l st1 analyzer lk) = none
      by_cases hap : a = p
      · subst hap
        unfold HoldSlackCrit.update_pin_slack
        rw [hnone]
      · have hl : p ∈ l := by
          rcases List.mem_cons.mp hp with h | h
          · exact absurd h.symm hap
          · exact h
        unfold HoldSlackCrit.update_pin_slack
        rcases ha : lk.atom_pin_tnode a with _ | node
        · rfl
        · exact ih _ hl

/-- With every pin mapped, the hold slack loop succeeds and writes the
per-pin worst hold slack at every pin. -/
theorem hold_slacks_loop_some (analyzer : HoldTimingAnalyzer) (lk : AtomLookup)
    (ps : List Nat) (st : HoldSlackCrit)
    (h : ∀ p ∈ ps, (lk.atom_pin_tnode p).isSome) :
    hold_slacks_loop ps st analyzer lk =
      some { st with pin_slacks :=
        (pwrites (hold_pin_slack_val analyzer lk) ps st.pin_slacks) } := by
  induction ps generalizing st with
  | nil => rfl
  | cons a l ih =>
      rcases ha : lk.atom_pin_tnode a with _ | node
      · exact absurd (h a (List.mem_cons_self a l)) (by rw [ha]; simp)
      · show (match st.update_pin_slack a analyzer lk with
          | none => none
          | some st1 => hold_slacks_loop l st1 analyzer lk) = _
        unfold HoldSlackCrit.update_pin_slack
        rw [ha]
        show hold_slacks_loop l _ analyzer lk = _
        rw [ih _ fun p hp => h p (List.mem_cons_of_mem a hp), pwrites_cons]
        cases st
        have hv : hold_pin_slack_val analyzer lk a = hold_slack_val analyzer node := by
          unfold hold_pin_slack_val
          rw [ha]
        rw [hv]

/-- With every pin mapped, the degenerate (no tag anywhere) criticality loop
succeeds and writes criticality 0 at every pin. -/
theorem hold_crit_empty_loop_some (lk : AtomLookup) (ps : List Nat)
    (st : HoldSlackCrit) (h : ∀ p ∈ ps, (lk.atom_pin_tnode p).isSome) :
    hold_crit_empty_loop ps st lk =
      some { st with pin_criticalities :=
        (pwrites (fun _ => FVal.val 0) ps st.pin_criticalities) } := by
  induction ps generalizing st with
  | nil => rfl
  | cons a l ih =>
      rcases ha : lk.atom_pin_tnode a with _ | node
      · exact absurd (h a (List.mem_cons_self a l)) (by rw [ha]; simp)
      · show (match lk.atom_pin_tnode a with
          | none => none
          | some _ => hold_crit_empty_loop l _ lk) = _
        rw [ha]
        rw [ih _ fun p hp => h p (List.mem_cons_of_mem a hp), pwrites_cons]

/-- With calc_pin_criticality succeeding on every pin, the criticality loop
succeeds and writes each pin's computed criticality. -/
theorem hold_crit_loop_some (analyzer : HoldTimingAnalyzer) (lk : AtomLookup)
    (scale shift : ℚ) (ps : List Nat) (st : HoldSlackCrit)
    (h : ∀ p ∈ ps,
      (HoldSlackCrit.calc_pin_criticality p analyzer lk scale shift).isSome) :
    hold_crit_loop ps st analyzer lk scale shift =
      some { st with pin_criticalities :=
        (pwrites (hold_pin_crit_val analyzer lk scale shift) ps st.pin_criticalities) } := by
  induction ps generalizing st with
  | nil => rfl
  | cons a l ih =>
      rcases ha : HoldSlackCrit.calc_pin_criticality a analyzer lk scale shift with _ | c
      · exact absurd (h a (List.mem_cons_self a l)) (by rw [ha]; simp)
      · show (match HoldSlackCrit.calc_pin_criticality a analyzer lk scale shift with
          | none => none
          | some c => hold_crit_loop l _ analyzer lk scale shift) = _
        rw [ha]
        show hold_crit_loop l _ analyzer lk scale shift = _
        rw [ih _ fun p hp => h p (List.mem_cons_of_mem a hp), pwrites_cons]
        have hv : hold_pin_crit_val analyzer lk scale shift a = FVal.val c := by
          unfold hold_pin_crit_val
          rw [ha]
        rw [hv]

/-- The hold criticality loop dies on the VTR_ASSERT(node) as soon as some
pin has no timing node. -/
theorem hold_crit_loop_none (analyzer : HoldTimingAnalyzer) (lk : AtomLookup)
    (scale shift : ℚ) (ps : List Nat) (st : HoldSlackCrit) (p : Nat)
    (hp : p ∈ ps) (hnone : lk.atom_pin_tnode p = none) :
    hold_crit_loop ps st analyzer lk scale shift = none := by
  induction ps generalizing st with
  | nil => cases hp
  | cons a l ih =>
      show (match HoldSlackCrit.calc_pin_criticality a analyzer lk scale shift with
        | none => none
        | some c => hold_crit_loop l _ analyzer lk scale shift) = none
      by_cases hap : a = p
      · subst hap
        unfold HoldSlackCrit.calc_pin_criticality
        rw [hnone]
      · have hl : p ∈ l := by
          rcases List.mem_cons.mp hp with h | h
          · exact absurd h.symm hap
          · exact h
        rcases ha : HoldSlackCrit.calc_pin_criticality a analyzer lk scale shift with _ | c
        · rfl
        · exact ih _ hl

/-! ## Lemmas: bounds for running maxima -/

/-- A running maximum never drops below its start. -/
theorem crit_fold_ge_init (f : TimingTag → ℚ) (l : List TimingTag) (b : ℚ) :
    b ≤ l.foldl (fun crit tag => max crit (f tag)) b := by
  induction l generalizing b with
  | nil => exact le_refl b
  | cons t ts ih => exact le_trans (le_max_left b (f t)) (ih (max b (f t)))

/-- A running maximum of values all bounded by u, started at most u,
stays at most u. -/
theorem crit_fold_le (f : TimingTag → ℚ) (l : List TimingTag) (u : ℚ) :
    ∀ b, b ≤ u → (∀ t ∈ l, f t ≤ u) →
      l.foldl (fun crit tag => max crit (f tag)) b ≤ u := by
  induction l with
  | nil => exact fun b hb _ => hb
  | cons t ts ih =>
      intro b hb h
      exact ih (max b (f t)) (max_le hb (h t (List.mem_cons_self t ts)))
        (fun t1 ht1 => h t1 (List.mem_cons_of_mem t ht1))

/-- The hold criticality formula is at least 0. -/
theorem hold_crit_formula_nonneg (scale shift : ℚ) (tags : List TimingTag) :
    0 ≤ hold_crit_formula scale shift tags :=
  crit_fold_ge_init (fun tag => 1 - scale * (tag.time + shift)) tags 0

/-! ## Lemmas: folded minima and maxima of time lists -/

theorem foldl_min_le_init (l : List ℚ) : ∀ a : ℚ, l.foldl min a ≤ a := by
  induction l with
  | nil => exact fun a => le_refl a
  | cons x xs ih => exact fun a => le_trans (ih (min a x)) (min_le_left a x)

theorem foldl_min_le_mem (l : List ℚ) : ∀ a : ℚ, ∀ x ∈ l, l.foldl min a ≤ x := by
  induction l with
  | nil => intro a x hx; cases hx
  | cons y ys ih =>
      intro a x hx
      rcases List.mem_cons.mp hx with h | h
      · subst h
        exact le_trans (foldl_min_le_init ys (min a x)) (min_le_right a x)
      · exact ih (min a y) x h

theorem foldl_min_mem (l : List ℚ) : ∀ a : ℚ, l.foldl min a = a ∨ l.foldl min a ∈ l := by
  induction l with
  | nil => exact fun a => Or.inl rfl
  | cons x xs ih =>
      intro a
      rcases ih (min a x) with h | h
      · rcases min_choice a x with hm | hm
        · exact Or.inl (by rw [List.foldl_cons, h, hm])
        · exact Or.inr (by rw [List.foldl_cons, h, hm]; exact List.mem_cons_self x xs)
      · exact Or.inr (List.mem_cons_of_mem x h)

theorem foldl_max_ge_init (l : List ℚ) : ∀ a : ℚ, a ≤ l.foldl max a := by
  induction l with
  | nil => exact fun a => le_refl a
  | cons x xs ih => exact fun a => le_trans (le_max_left a x) (ih (max a x))

theorem foldl_max_ge_mem (l : List ℚ) : ∀ a : ℚ, ∀ x ∈ l, x ≤ l.foldl max a := by
  induction l with
  | nil => intro a x hx; cases hx
  | cons y ys ih =>
      intro a x hx
      rcases List.mem_cons.mp hx with h | h
      · subst h
        exact le_trans (le_max_right a x) (foldl_max_ge_init ys (max a x))
      · exact ih (max a y) x h

theorem foldl_max_mem (l : List ℚ) : ∀ a : ℚ, l.foldl max a = a ∨ l.foldl max a ∈ l := by
  induction l with
  | nil => exact fun a => Or.inl rfl
  | cons x xs ih =>
      intro a
      rcases ih (max a x) with h | h
      · rcases max_choice a x with hm | hm
        · exact Or.inl (by rw [List.foldl_cons, h, hm])
        · exact Or.inr (by rw [List.foldl_cons, h, hm]; exact List.mem_cons_self x xs)
      · exact Or.inr (List.mem_cons_of_mem x h)

theorem ofoldMin_some (l : List ℚ) : ∀ a : ℚ, ofoldMin (some a) l = some (l.foldl min a) := by
  induction l with
  | nil => exact fun a => rfl
  | cons x xs ih => exact fun a => ih (min a x)

theorem ofoldMin_none_cons (x : ℚ) (l : List ℚ) :
    ofoldMin none (x :: l) = some (l.foldl min x) :=
  ofoldMin_some l x

theorem ofoldMax_some (l : List ℚ) : ∀ a : ℚ, ofoldMax (some a) l = some (l.foldl max a) := by
  induction l with
  | nil => exact fun a => rfl
  | cons x xs ih => exact fun a => ih (max a x)

theorem ofoldMax_none_cons (x : ℚ) (l : List ℚ) :
    ofoldMax none (x :: l) = some (l.foldl max x) :=
  ofoldMax_some l x

theorem ofoldMax_cons (o : Option ℚ) (x : ℚ) (l : List ℚ) :
    ofoldMax o (x :: l) =
      ofoldMax (match o with | none => some x | some a => some (max a x)) l := rfl

theorem ofoldMin_cons (o : Option ℚ) (x : ℚ) (l : List ℚ) :
    ofoldMin o (x :: l) =
      ofoldMin (match o with | none => some x | some a => some (min a x)) l := rfl

theorem ofoldMax_append (o : Option ℚ) (l1 l2 : List ℚ) :
    ofoldMax o (l1 ++ l2) = ofoldMax (ofoldMax o l1) l2 := by
  unfold ofoldMax
  rw [List.foldl_append]

theorem ofoldMin_append (o : Option ℚ) (l1 l2 : List ℚ) :
    ofoldMin o (l1 ++ l2) = ofoldMin (ofoldMin o l1) l2 := by
  unfold ofoldMin
  rw [List.foldl_append]

/-- find_minimum_tag computes the running minimum of the tag times. -/
theorem find_minimum_tag_fold (tags : List TimingTag) :
    ∀ acc : Option TimingTag,
      (tags.foldl
        (fun acc t =>
          match acc with
          | none => some t
          | some m => if t.time < m.time then some t else some m)
        acc).map TimingTag.time =
      ofoldMin (acc.map TimingTag.time) (tags.map TimingTag.time) := by
  induction tags with
  | nil => intro acc; rfl
  | cons t ts ih =>
      intro acc
      rcases acc with _ | m
      · exact ih (some t)
      · rw [List.foldl_cons, List.map_cons]
        have hsel : (if t.time < m.time then some t else some m).map TimingTag.time =
            some (min m.time t.time) := by
          rcases lt_or_le t.time m.time with h | h
          · rw [if_pos h]
            show some t.time = some (min m.time t.time)
            exact congrArg some (min_eq_right (le_of_lt h)).symm
          · rw [if_neg (not_lt.mpr h)]
            show some m.time = some (min m.time t.time)
            exact congrArg some (min_eq_left h).symm
        show _ = ofoldMin (some (min m.time t.time)) (ts.map TimingTag.time)
        rw [ih, hsel]

theorem find_minimum_tag_map_time (tags : List TimingTag) :
    (find_minimum_tag tags).map TimingTag.time =
      ofoldMin none (tags.map TimingTag.time) :=
  find_minimum_tag_fold tags none

/-! ## Lemmas: the domain-pair aggregation maps -/

theorem max_req_fold_lookup (dp : DomainPair) (tags : List TimingTag) :
    ∀ m : DPMap,
      (max_req_fold m tags).lookup dp =
        ofoldMax (m.lookup dp)
          ((tags.filter (fun t => t.domain_pair = dp)).map TimingTag.time) := by
  induction tags with
  | nil => intro m; rfl
  | cons t ts ih =>
      intro m
      show (max_req_fold
        (match m.lookup t.domain_pair with
         | none => m.insert t.domain_pair t.time
         | some cur => if cur < t.time then m.insert t.domain_pair t.time else m)
        ts).lookup dp = _
      rw [ih]
      by_cases hdp : t.domain_pair = dp
      · subst hdp
        rw [List.filter_cons_of_pos (by simp), List.map_cons, ofoldMax_cons]
        apply congrArg (fun o => ofoldMax o _)
        rcases hm : m.lookup t.domain_pair with _ | cur
        · show (m.insert t.domain_pair t.time).lookup t.domain_pair = some t.time
          exact Finmap.lookup_insert m
        · show (if cur < t.time then m.insert t.domain_pair t.time else m).lookup
              t.domain_pair = some (max cur t.time)
          rcases lt_or_le cur t.time with h | h
          · rw [if_pos h, Finmap.lookup_insert m]
            exact congrArg some (max_eq_right (le_of_lt h)).symm
          · rw [if_neg (not_lt.mpr h), hm]
            exact congrArg some (max_eq_left h).symm
      · rw [List.filter_cons_of_neg (by simp [hdp])]
        apply congrArg (fun o => ofoldMax o _)
        have hne : dp ≠ t.domain_pair := fun h => hdp h.symm
        rcases hm : m.lookup t.domain_pair with _ | cur
        · show (m.insert t.domain_pair t.time).lookup dp = m.lookup dp
          exact Finmap.lookup_insert_of_ne m hne
        · show (if cur < t.time then m.insert t.domain_pair t.time else m).lookup dp =
            m.lookup dp
          rcases lt_or_le cur t.time with h | h
          · rw [if_pos h]
            exact Finmap.lookup_insert_of_ne m hne
          · rw [if_neg (not_lt.mpr h)]

theorem worst_slack_fold_lookup (dp : DomainPair) (tags : List TimingTag) :
    ∀ m : DPMap,
      (worst_slack_fold m tags).lookup dp =
        ofoldMin (m.lookup dp)
          ((tags.filter (fun t => t.domain_pair = dp)).map TimingTag.time) := by
  induction tags with
  | nil => intro m; rfl
  | cons t ts ih =>
      intro m
      show (worst_slack_fold
        (match m.lookup t.domain_pair with
         | none => m.insert t.domain_pair t.time
         | some cur => if t.time < cur then m.insert t.domain_pair t.time else m)
        ts).lookup dp = _
      rw [ih]
      by_cases hdp : t.domain_pair = dp
      · subst hdp
        rw [List.filter_cons_of_pos (by simp), List.map_cons, ofoldMin_cons]
        apply congrArg (fun o => ofoldMin o _)
        rcases hm : m.lookup t.domain_pair with _ | cur
        · show (m.insert t.domain_pair t.time).lookup t.domain_pair = some t.time
          exact Finmap.lookup_insert m
        · show (if t.time < cur then m.insert t.domain_pair t.time else m).lookup
              t.domain_pair = some (min cur t.time)
          rcases lt_or_le t.time cur with h | h
          · rw [if_pos h, Finmap.lookup_insert m]
            exact congrArg some (min_eq_right (le_of_lt h)).symm
          · rw [if_neg (not_lt.mpr h), hm]
            exact congrArg some (min_eq_left h).symm
      · rw [List.filter_cons_of_neg (by simp [hdp])]
        apply congrArg (fun o => ofoldMin o _)
        have hne : dp ≠ t.domain_pair := fun h => hdp h.symm
        rcases hm : m.lookup t.domain_pair with _ | cur
        · show (m.insert t.domain_pair t.time).lookup dp = m.lookup dp
          exact Finmap.lookup_insert_of_ne m hne
        · show (if t.time < cur then m.insert t.domain_pair t.time else m).lookup dp =
            m.lookup dp
          rcases lt_or_le t.time cur with h | h
          · rw [if_pos h]
            exact Finmap.lookup_insert_of_ne m hne
          · rw [if_neg (not_lt.mpr h)]

theorem compute_max_req_lookup (g : TimingGraph) (analyzer : SetupTimingAnalyzer)
    (dp : DomainPair) :
    (compute_max_req g analyzer).lookup dp = ofoldMax none (req_times g analyzer dp) := by
  unfold compute_max_req req_times
  have key : ∀ (outs : List Nat) (m : DPMap),
      (outs.foldl (fun m node => max_req_fold m (analyzer.setup_required_tags node)) m).lookup dp =
        ofoldMax (m.lookup dp)
          (outs.flatMap (fun n => ((analyzer.setup_required_tags n).filter
            (fun t => t.domain_pair = dp)).map TimingTag.time)) := by
    intro outs
    induction outs with
    | nil => intro m; rfl
    | cons a l ih =>
        intro m
        rw [List.foldl_cons, List.flatMap_cons, ofoldMax_append, ih, max_req_fold_lookup]
  rw [key, Finmap.lookup_empty]

theorem compute_worst_slack_lookup (g : TimingGraph) (analyzer : SetupTimingAnalyzer)
    (dp : DomainPair) :
    (compute_worst_slack g analyzer).lookup dp = ofoldMin none (slack_times g analyzer dp) := by
  unfold compute_worst_slack slack_times
  have key : ∀ (outs : List Nat) (m : DPMap),
      (outs.foldl (fun m node => worst_slack_fold m (analyzer.setup_slacks node)) m).lookup dp =
        ofoldMin (m.lookup dp)
          (outs.flatMap (fun n => ((analyzer.setup_slacks n).filter
            (fun t => t.domain_pair = dp)).map TimingTag.time)) := by
    intro outs
    induction outs with
    | nil => intro m; rfl
    | cons a l ih =>
        intro m
        rw [List.foldl_cons, List.flatMap_cons, ofoldMin_append, ih, worst_slack_fold_lookup]
  rw [key, Finmap.lookup_empty]

/-! ## Lemmas: characterization of folded extrema -/

theorem ofoldMax_none_some_iff (l : List ℚ) (v : ℚ) :
    ofoldMax none l = some v ↔ v ∈ l ∧ ∀ x ∈ l, x ≤ v := by
  rcases l with _ | ⟨x, xs⟩
  · constructor
    · intro h; cases h
    · intro h; cases h.1
  · rw [ofoldMax_none_cons]
    constructor
    · intro h
      have hv : v = xs.foldl max x := (Option.some_injective ℚ h).symm
      subst hv
      refine ⟨?_, ?_⟩
      · rcases foldl_max_mem xs x with h1 | h1
        · rw [h1]; exact List.mem_cons_self x xs
        · exact List.mem_cons_of_mem x h1
      · intro y hy
        rcases List.mem_cons.mp hy with h1 | h1
        · subst h1; exact foldl_max_ge_init xs y
        · exact foldl_max_ge_mem xs x y h1
    · rintro ⟨hv, hub⟩
      have h1 : xs.foldl max x ≤ v := by
        rcases foldl_max_mem xs x with h2 | h2
        · rw [h2]; exact hub x (List.mem_cons_self x xs)
        · exact hub _ (List.mem_cons_of_mem x h2)
      have h2 : v ≤ xs.foldl max x := by
        rcases List.mem_cons.mp hv with h3 | h3
        · subst h3; exact foldl_max_ge_init xs v
        · exact foldl_max_ge_mem xs x v h3
      exact congrArg some (le_antisymm h1 h2)

theorem ofoldMin_none_some_iff (l : List ℚ) (v : ℚ) :
    ofoldMin none l = some v ↔ v ∈ l ∧ ∀ x ∈ l, v ≤ x := by
  rcases l with _ | ⟨x, xs⟩
  · constructor
    · intro h; cases h
    · intro h; cases h.1
  · rw [ofoldMin_none_cons]
    constructor
    · intro h
      have hv : v = xs.foldl min x := (Option.some_injective ℚ h).symm
      subst hv
      refine ⟨?_, ?_⟩
      · rcases foldl_min_mem xs x with h1 | h1
        · rw [h1]; exact List.mem_cons_self x xs
        · exact List.mem_cons_of_mem x h1
      · intro y hy
        rcases List.mem_cons.mp hy with h1 | h1
        · subst h1; exact foldl_min_le_init xs y
        · exact foldl_min_le_mem xs x y h1
    · rintro ⟨hv, hlb⟩
      have h1 : v ≤ xs.foldl min x := by
        rcases foldl_min_mem xs x with h2 | h2
        · rw [h2]; exact hlb x (List.mem_cons_self x xs)
        · exact hlb _ (List.mem_cons_of_mem x h2)
      have h2 : xs.foldl min x ≤ v := by
        rcases List.mem_cons.mp hv with h3 | h3
        · subst h3; exact foldl_min_le_init xs v
        · exact foldl_min_le_mem xs x v h3
      exact congrArg some (le_antisymm h2 h1)

theorem ofoldMax_none_none_iff (l : List ℚ) : ofoldMax none l = none ↔ l = [] := by
  rcases l with _ | ⟨x, xs⟩
  · simp [ofoldMax]
  · rw [ofoldMax_none_cons]
    simp

theorem ofoldMin_none_none_iff (l : List ℚ) : ofoldMin none l = none ↔ l = [] := by
  rcases l with _ | ⟨x, xs⟩
  · simp [ofoldMin]
  · rw [ofoldMin_none_cons]
    simp

/-! ## Lemmas: the stored slack of a node -/

/-- With no tags, the stored value is +infinity. -/
theorem min_tag_val_inf (tags : List TimingTag) (h : tags = []) :
    (match find_minimum_tag tags with
     | some t => FVal.val t.time
     | none => FVal.inf) = FVal.inf := by
  subst h
  rfl

/-- With tags, the stored value is the minimum tag time. -/
theorem min_tag_val_min (tags : List TimingTag) (h : tags ≠ []) :
    ∃ m : ℚ,
      (match find_minimum_tag tags with
       | some t => FVal.val t.time
       | none => FVal.inf) = FVal.val m ∧
      m ∈ tags.map TimingTag.time ∧ ∀ x ∈ tags.map TimingTag.time, m ≤ x := by
  rcases htag : find_minimum_tag tags with _ | t0
  · exfalso
    have hmap := find_minimum_tag_map_time tags
    rw [htag] at hmap
    rcases tags with _ | ⟨t, ts⟩
    · exact h rfl
    · rw [List.map_cons, ofoldMin_none_cons] at hmap
      cases hmap
  · refine ⟨t0.time, rfl, ?_⟩
    have hmap := find_minimum_tag_map_time tags
    rw [htag] at hmap
    have hsome : ofoldMin none (tags.map TimingTag.time) = some t0.time := hmap.symm
    have := (ofoldMin_none_some_iff (tags.map TimingTag.time) t0.time).mp hsome
    exact this

/-! ## Lemmas: range of the criticality values -/

/-- Under tag validity, the spec-modelled relaxed criticality lies in
[0, 1]. -/
theorem calc_relaxed_criticality_range (mr ws : DPMap) (tags : List TimingTag)
    (h : ∀ tag ∈ tags, valid_setup_tag mr ws tag) :
    0 ≤ calc_relaxed_criticality mr ws tags ∧ calc_relaxed_criticality mr ws tags ≤ 1 := by
  constructor
  · exact crit_fold_ge_init
      (fun tag => 1 - (tag.time - ((ws.lookup tag.domain_pair).getD 0)) /
        (((mr.lookup tag.domain_pair).getD 0) - ((ws.lookup tag.domain_pair).getD 0)))
      tags 0
  · refine crit_fold_le
      (fun tag => 1 - (tag.time - ((ws.lookup tag.domain_pair).getD 0)) /
        (((mr.lookup tag.domain_pair).getD 0) - ((ws.lookup tag.domain_pair).getD 0)))
      tags 1 0 zero_le_one ?_
    intro t ht
    rcases h t ht with ⟨r, w, hr, hw, hwt, htr, hwr⟩
    show 1 - (t.time - ((ws.lookup t.domain_pair).getD 0)) /
      (((mr.lookup t.domain_pair).getD 0) - ((ws.lookup t.domain_pair).getD 0)) ≤ 1
    rw [hr, hw]
    simp only [Option.getD_some]
    have hq : 0 ≤ (t.time - w) / (r - w) :=
      div_nonneg (sub_nonneg.mpr hwt) (le_of_lt (sub_pos.mpr hwr))
    linarith

/-- The hold criticality formula is bounded by 1 when the scale is
nonnegative and every tag time is at least the negated shift. -/
theorem hold_crit_formula_le_one (scale shift : ℚ) (tags : List TimingTag)
    (hscale : 0 ≤ scale) (htags : ∀ t ∈ tags, -shift ≤ t.time) :
    hold_crit_formula scale shift tags ≤ 1 := by
  refine crit_fold_le (fun tag => 1 - scale * (tag.time + shift)) tags 1 0 zero_le_one ?_
  intro t ht
  have h1 : 0 ≤ t.time + shift := by
    have := htags t ht
    linarith
  have h2 : 0 ≤ scale * (t.time + shift) := mul_nonneg hscale h1
  show 1 - scale * (t.time + shift) ≤ 1
  linarith

/-- A graph node's hold tag times all appear in the global scan list. -/
theorem mem_all_hold_slacks (g : TimingGraph) (analyzer : HoldTimingAnalyzer)
    (n : Nat) (hn : n ∈ g.nodes) (t : TimingTag) (ht : t ∈ analyzer.hold_slacks n) :
    t.time ∈ all_hold_slacks g analyzer := by
  unfold all_hold_slacks
  rw [List.mem_flatMap]
  exact ⟨n, hn, List.mem_map_of_mem TimingTag.time ht⟩

/-! ## Claim theorems -/

/-- C7: iterating only the logical-output nodes, max_required maps a domain
pair to v exactly when v is the greatest DATA_REQUIRED tag time of that
domain pair, and worst_slack maps it to v exactly when v is the least
setup-slack tag time; a domain pair is keyed exactly when such a tag
exists. -/
theorem C7_aggregates_are_extrema (g : TimingGraph) (analyzer : SetupTimingAnalyzer)
    (dp : DomainPair) (v : ℚ) :
    ((compute_max_req g analyzer).lookup dp = some v ↔
      v ∈ req_times g analyzer dp ∧ ∀ x ∈ req_times g analyzer dp, x ≤ v) ∧
    ((compute_worst_slack g analyzer).lookup dp = some v ↔
      v ∈ slack_times g analyzer dp ∧ ∀ x ∈ slack_times g analyzer dp, v ≤ x) ∧
    ((compute_max_req g analyzer).lookup dp = none ↔ req_times g analyzer dp = []) ∧
    ((compute_worst_slack g analyzer).lookup dp = none ↔ slack_times g analyzer dp = []) := by
  rw [compute_max_req_lookup, compute_worst_slack_lookup]
  exact ⟨ofoldMax_none_some_iff _ v, ofoldMin_none_some_iff _ v,
    ofoldMax_none_none_iff _, ofoldMin_none_none_iff _⟩

/-- C9: HoldSlackCrit::update_slacks queries the node of every netlist pin
and VTR_ASSERTs it valid: any unmapped pin makes the call fail fatally
rather than being skipped, and with a total pin-to-node lookup the failure
branch is unreachable; calc_pin_criticality asserts the same lookup. -/
theorem C9_hold_requires_total_lookup (netlist : AtomNetlist)
    (analyzer : HoldTimingAnalyzer) (lk : AtomLookup) (st : HoldSlackCrit) :
    ((∃ p ∈ netlist.pins, lk.atom_pin_tnode p = none) →
      st.update_slacks netlist analyzer lk = none) ∧
    ((∀ p ∈ netlist.pins, (lk.atom_pin_tnode p).isSome) →
      ∃ st2, st.update_slacks netlist analyzer lk = some st2) ∧
    (∀ p scale shift, lk.atom_pin_tnode p = none →
      HoldSlackCrit.calc_pin_criticality p analyzer lk scale shift = none) := by
  refine ⟨?_, ?_, ?_⟩
  · rintro ⟨p, hp, hnone⟩
    exact hold_slacks_loop_none analyzer lk netlist.pins st p hp hnone
  · intro h
    exact ⟨_, hold_slacks_loop_some analyzer lk netlist.pins st h⟩
  · intro p scale shift hnone
    unfold HoldSlackCrit.calc_pin_criticality
    rw [hnone]

/-- C6: for every node processed by a slack update (the setup update over
the modified nodes, and the hold update over every pin's node), the pin's
stored slack is the minimum time among the node's slack tags, and +infinity
when the node has no slack tags. -/
theorem C6_slack_is_min_or_infinity (an : SetupTimingAnalyzer)
    (ha : HoldTimingAnalyzer) (netlist : AtomNetlist) (lk : AtomLookup)
    (st : SetupSlackCrit) (hst : HoldSlackCrit) :
    (∀ n p,
      (∀ n1 n2 q, lk.tnode_atom_pin n1 = some q → lk.tnode_atom_pin n2 = some q → n1 = n2) →
      n ∈ an.modified_nodes → lk.tnode_atom_pin n = some p →
      ((an.setup_slacks n = [] → (st.update_slacks an lk).pin_slacks p = FVal.inf) ∧
       (an.setup_slacks n ≠ [] → ∃ m : ℚ,
          (st.update_slacks an lk).pin_slacks p = FVal.val m ∧
          m ∈ (an.setup_slacks n).map TimingTag.time ∧
          ∀ x ∈ (an.setup_slacks n).map TimingTag.time, m ≤ x))) ∧
    (∀ p n st2, (∀ q ∈ netlist.pins, (lk.atom_pin_tnode q).isSome) →
      p ∈ netlist.pins → lk.atom_pin_tnode p = some n →
      hst.update_slacks netlist ha lk = some st2 →
      ((ha.hold_slacks n = [] → st2.pin_slacks p = FVal.inf) ∧
       (ha.hold_slacks n ≠ [] → ∃ m : ℚ,
          st2.pin_slacks p = FVal.val m ∧
          m ∈ (ha.hold_slacks n).map TimingTag.time ∧
          ∀ x ∈ (ha.hold_slacks n).map TimingTag.time, m ≤ x))) := by
  constructor
  · intro n p hinj hn hp
    have harr : (st.update_slacks an lk).pin_slacks p = setup_slack_val an n := by
      rw [update_slacks_spec]
      exact writes_mem lk.tnode_atom_pin (setup_slack_val an) an.modified_nodes
        st.pin_slacks n p hinj hn hp
    constructor
    · intro hempty
      rw [harr]
      exact min_tag_val_inf (an.setup_slacks n) hempty
    · intro hne
      rcases min_tag_val_min (an.setup_slacks n) hne with ⟨m, hm, hmem, hle⟩
      exact ⟨m, by rw [harr]; exact hm, hmem, hle⟩
  · intro p n st2 htotal hp hnode heq
    rw [HoldSlackCrit.update_slacks, hold_slacks_loop_some ha lk netlist.pins hst htotal] at heq
    have hst2 : st2.pin_slacks p =
        pwrites (hold_pin_slack_val ha lk) netlist.pins hst.pin_slacks p := by
      rw [← Option.some_injective _ heq]
    rw [pwrites_mem _ _ _ _ hp] at hst2
    have hval : hold_pin_slack_val ha lk p = hold_slack_val ha n := by
      unfold hold_pin_slack_val
      rw [hnode]
    rw [hval] at hst2
    constructor
    · intro hempty
      rw [hst2]
      exact min_tag_val_inf (ha.hold_slacks n) hempty
    · intro hne
      rcases min_tag_val_min (ha.hold_slacks n) hne with ⟨m, hm, hmem, hle⟩
      exact ⟨m, by rw [hst2]; exact hm, hmem, hle⟩

/-- C3 counterexample: nodes_to_pins does not exclude unmapped nodes — a
modified set holding the unmapped node 5 yields a modified-slack pin list
with an invalid placeholder entry, where the claim requires none. -/
theorem C3_counterexample :
    Option.none ∈
      (SetupSlackCrit.init.update_slacks wit_an_unmapped
        wit_lookup_none).pins_with_modified_slacks := by
  rw [update_slacks_spec]
  exact List.mem_cons_self none []

/-- C3 amended: under the totality the source asserts in update_pin_slack
(every modified node maps to a pin), with an injective node-to-pin map and a
duplicate-free modified set, pins_with_modified_slack() is exactly the pin
projection of the modified nodes, placeholder-free and duplicate-free;
unmapped nodes are not excluded but contribute placeholder entries (see the
counterexample). -/
theorem C3_amended_modified_slack_pins (st : SetupSlackCrit)
    (an : SetupTimingAnalyzer) (lk : AtomLookup)
    (htotal : ∀ n ∈ an.modified_nodes, (lk.tnode_atom_pin n).isSome)
    (hinj : ∀ n1 n2 q, lk.tnode_atom_pin n1 = some q → lk.tnode_atom_pin n2 = some q → n1 = n2)
    (hnodup : an.modified_nodes.Nodup) :
    (st.update_slacks an lk).pins_with_modified_slacks =
      an.modified_nodes.map lk.tnode_atom_pin ∧
    (∀ x ∈ (st.update_slacks an lk).pins_with_modified_slacks, x.isSome) ∧
    (st.update_slacks an lk).pins_with_modified_slacks.Nodup := by
  rw [update_slacks_spec]
  refine ⟨rfl, ?_, ?_⟩
  · intro x hx
    rcases List.mem_map.mp hx with ⟨n, hn, hxn⟩
    rw [← hxn]
    exact htotal n hn
  · refine List.Nodup.map_on ?_ hnodup
    intro n1 hn1 n2 hn2 heq
    rcases Option.isSome_iff_exists.mp (htotal n1 hn1) with ⟨q, hq⟩
    exact hinj n1 n2 q hq (by rw [← heq]; exact hq)

/-- C1: when the freshly aggregated (max_required, worst_slack) maps are
value-equal to the stored ones, update_criticalities recomputes criticality
only for the pins of analyzer.modified_nodes() (all other pins untouched);
when any key or value differs, it recomputes the criticality of every node
of the timing graph. -/
theorem C1_incremental_or_full_recompute (st : SetupSlackCrit) (g : TimingGraph)
    (an : SetupTimingAnalyzer) (lk : AtomLookup)
    (hinj : ∀ n1 n2 q, lk.tnode_atom_pin n1 = some q → lk.tnode_atom_pin n2 = some q → n1 = n2) :
    (((∀ dp, (compute_max_req g an).lookup dp = st.prev_max_req.lookup dp) ∧
      (∀ dp, (compute_worst_slack g an).lookup dp = st.prev_worst_slack.lookup dp)) →
      ((∀ n ∈ an.modified_nodes, ∀ p, lk.tnode_atom_pin n = some p →
        (st.update_criticalities g an lk).pin_criticalities p =
          FVal.val (calc_relaxed_criticality (compute_max_req g an)
            (compute_worst_slack g an) (an.setup_slacks n))) ∧
       (∀ p, (∀ n ∈ an.modified_nodes, lk.tnode_atom_pin n ≠ some p) →
        (st.update_criticalities g an lk).pin_criticalities p = st.pin_criticalities p))) ∧
    ((∃ dp, (compute_max_req g an).lookup dp ≠ st.prev_max_req.lookup dp ∨
        (compute_worst_slack g an).lookup dp ≠ st.prev_worst_slack.lookup dp) →
      (∀ n ∈ g.nodes, ∀ p, lk.tnode_atom_pin n = some p →
        (st.update_criticalities g an lk).pin_criticalities p =
          FVal.val (calc_relaxed_criticality (compute_max_req g an)
            (compute_worst_slack g an) (an.setup_slacks n)))) := by
  constructor
  · rintro ⟨h1, h2⟩
    have hmr : compute_max_req g an = st.prev_max_req := Finmap.ext_lookup h1
    have hws : compute_worst_slack g an = st.prev_worst_slack := Finmap.ext_lookup h2
    constructor
    · intro n hn p hp
      rw [update_criticalities_spec]
      show writes lk.tnode_atom_pin _
        (if compute_max_req g an = st.prev_max_req ∧
            compute_worst_slack g an = st.prev_worst_slack
         then an.modified_nodes else g.nodes) st.pin_criticalities p = _
      rw [if_pos ⟨hmr, hws⟩]
      exact writes_mem _ _ _ _ n p hinj hn hp
    · intro p hframe
      rw [update_criticalities_spec]
      show writes lk.tnode_atom_pin _
        (if compute_max_req g an = st.prev_max_req ∧
            compute_worst_slack g an = st.prev_worst_slack
         then an.modified_nodes else g.nodes) st.pin_criticalities p = _
      rw [if_pos ⟨hmr, hws⟩]
      exact writes_frame _ _ _ _ p hframe
  · rintro ⟨dp, hdp⟩
    have hne : ¬(compute_max_req g an = st.prev_max_req ∧
        compute_worst_slack g an = st.prev_worst_slack) := by
      rintro ⟨e1, e2⟩
      rcases hdp with h | h
      · exact h (by rw [e1])
      · exact h (by rw [e2])
    intro n hn p hp
    rw [update_criticalities_spec]
    show writes lk.tnode_atom_pin _
      (if compute_max_req g an = st.prev_max_req ∧
          compute_worst_slack g an = st.prev_worst_slack
       then an.modified_nodes else g.nodes) st.pin_criticalities p = _
    rw [if_neg hne]
    exact writes_mem _ _ _ _ n p hinj hn hp

/-- C2: with the fresh aggregates value-equal to the stored ones, every pin
whose timing node is not among the modified nodes keeps exactly its previous
criticality; when they differ, every pin whose node is in the graph has its
criticality freshly recomputed even if its own tags did not change. -/
theorem C2_retention_and_global_recompute (st : SetupSlackCrit) (g : TimingGraph)
    (an : SetupTimingAnalyzer) (lk : AtomLookup)
    (hcoh : ∀ p n, lk.atom_pin_tnode p = some n → lk.tnode_atom_pin n = some p)
    (hcoh2 : ∀ n p, lk.tnode_atom_pin n = some p → lk.atom_pin_tnode p = some n) :
    (((∀ dp, (compute_max_req g an).lookup dp = st.prev_max_req.lookup dp) ∧
      (∀ dp, (compute_worst_slack g an).lookup dp = st.prev_worst_slack.lookup dp)) →
      ∀ p n, lk.atom_pin_tnode p = some n → n ∉ an.modified_nodes →
        (st.update_criticalities g an lk).pin_criticalities p = st.pin_criticalities p) ∧
    ((∃ dp, (compute_max_req g an).lookup dp ≠ st.prev_max_req.lookup dp ∨
        (compute_worst_slack g an).lookup dp ≠ st.prev_worst_slack.lookup dp) →
      ∀ p n, lk.atom_pin_tnode p = some n → n ∈ g.nodes →
        (st.update_criticalities g an lk).pin_criticalities p =
          FVal.val (calc_relaxed_criticality (compute_max_req g an)
            (compute_worst_slack g an) (an.setup_slacks n))) := by
  have hinj : ∀ n1 n2 q, lk.tnode_atom_pin n1 = some q → lk.tnode_atom_pin n2 = some q →
      n1 = n2 := by
    intro n1 n2 q ha hb
    have h1 := hcoh2 n1 q ha
    have h2 := hcoh2 n2 q hb
    rw [h1] at h2
    exact Option.some_injective _ h2
  constructor
  · rintro ⟨h1, h2⟩ p n hp hnmod
    have hmr : compute_max_req g an = st.prev_max_req := Finmap.ext_lookup h1
    have hws : compute_worst_slack g an = st.prev_worst_slack := Finmap.ext_lookup h2
    rw [update_criticalities_spec]
    show writes lk.tnode_atom_pin _
      (if compute_max_req g an = st.prev_max_req ∧
          compute_worst_slack g an = st.prev_worst_slack
       then an.modified_nodes else g.nodes) st.pin_criticalities p = _
    rw [if_pos ⟨hmr, hws⟩]
    refine writes_frame _ _ _ _ p ?_
    intro m hm hmp
    have := hcoh2 m p hmp
    rw [hp] at this
    exact hnmod (by rw [Option.some_injective _ this]; exact hm)
  · rintro ⟨dp, hdp⟩ p n hp hng
    have hne : ¬(compute_max_req g an = st.prev_max_req ∧
        compute_worst_slack g an = st.prev_worst_slack) := by
      rintro ⟨e1, e2⟩
      rcases hdp with h | h
      · exact h (by rw [e1])
      · exact h (by rw [e2])
    rw [update_criticalities_spec]
    show writes lk.tnode_atom_pin _
      (if compute_max_req g an = st.prev_max_req ∧
          compute_worst_slack g an = st.prev_worst_slack
       then an.modified_nodes else g.nodes) st.pin_criticalities p = _
    rw [if_neg hne]
    exact writes_mem _ _ _ _ n p hinj hng (hcoh p n hp)

/-! ## Lemmas: the hold criticality update -/

/-- With a valid node whose tag criticalities stay in range,
calc_pin_criticality returns the running-maximum formula. -/
theorem calc_pin_criticality_eq (ha : HoldTimingAnalyzer) (lk : AtomLookup)
    (p n : Nat) (scale shift : ℚ) (hnode : lk.atom_pin_tnode p = some n)
    (hscale : 0 ≤ scale) (hts : ∀ t ∈ ha.hold_slacks n, -shift ≤ t.time) :
    HoldSlackCrit.calc_pin_criticality p ha lk scale shift =
      some (hold_crit_formula scale shift (ha.hold_slacks n)) := by
  unfold HoldSlackCrit.calc_pin_criticality
  rw [hnode]
  show (if 0 ≤ hold_crit_formula scale shift (ha.hold_slacks n) ∧
      hold_crit_formula scale shift (ha.hold_slacks n) ≤ 1
    then some (hold_crit_formula scale shift (ha.hold_slacks n)) else none) = _
  rw [if_pos ⟨hold_crit_formula_nonneg scale shift _,
    hold_crit_formula_le_one scale shift _ hscale hts⟩]

/-- The folded scan minimum bounds every graph node's hold tag time from
below. -/
theorem hold_scan_lb (g : TimingGraph) (ha : HoldTimingAnalyzer) (s0 : ℚ)
    (rest : List ℚ) (hall : all_hold_slacks g ha = s0 :: rest) (n : Nat)
    (hn : n ∈ g.nodes) : ∀ t ∈ ha.hold_slacks n, rest.foldl min s0 ≤ t.time := by
  intro t ht
  have hmem := mem_all_hold_slacks g ha n hn t ht
  rw [hall] at hmem
  rcases List.mem_cons.mp hmem with h | h
  · rw [h]
    exact foldl_min_le_init rest s0
  · exact foldl_min_le_mem rest s0 _ h

/-- With at least one hold tag in the graph scan and a total pin lookup into
the graph, HoldSlackCrit::update_criticalities succeeds, leaves the slack
array alone, and stores at each pin the running-maximum formula under
scale = 1/|best - worst| and shift = -worst from the scan. -/
theorem hold_crit_update_nonempty (st : HoldSlackCrit) (g : TimingGraph)
    (netlist : AtomNetlist) (ha : HoldTimingAnalyzer) (lk : AtomLookup)
    (s0 : ℚ) (rest : List ℚ) (hall : all_hold_slacks g ha = s0 :: rest)
    (htotal : ∀ p ∈ netlist.pins, (lk.atom_pin_tnode p).isSome)
    (hmem : ∀ p ∈ netlist.pins, ∀ n, lk.atom_pin_tnode p = some n → n ∈ g.nodes) :
    ∃ st2, st.update_criticalities g netlist ha lk = some st2 ∧
      st2.pin_slacks = st.pin_slacks ∧
      ∀ p ∈ netlist.pins, ∀ n, lk.atom_pin_tnode p = some n →
        st2.pin_criticalities p =
          FVal.val (hold_crit_formula (1 / |rest.foldl max s0 - rest.foldl min s0|)
            (-(rest.foldl min s0)) (ha.hold_slacks n)) := by
  have hscale : (0 : ℚ) ≤ 1 / |rest.foldl max s0 - rest.foldl min s0| :=
    one_div_nonneg.mpr (abs_nonneg _)
  have hts : ∀ p ∈ netlist.pins, ∀ n, lk.atom_pin_tnode p = some n →
      ∀ t ∈ ha.hold_slacks n, -(-(rest.foldl min s0)) ≤ t.time := by
    intro p hp n hn t ht
    rw [neg_neg]
    exact hold_scan_lb g ha s0 rest hall n (hmem p hp n hn) t ht
  have hsucc : ∀ p ∈ netlist.pins,
      (HoldSlackCrit.calc_pin_criticality p ha lk
        (1 / |rest.foldl max s0 - rest.foldl min s0|) (-(rest.foldl min s0))).isSome := by
    intro p hp
    rcases Option.isSome_iff_exists.mp (htotal p hp) with ⟨n, hn⟩
    rw [calc_pin_criticality_eq ha lk p n _ _ hn hscale (hts p hp n hn)]
    rfl
  have hmain : st.update_criticalities g netlist ha lk =
      hold_crit_loop netlist.pins st ha lk
        (1 / |rest.foldl max s0 - rest.foldl min s0|) (-(rest.foldl min s0)) := by
    unfold HoldSlackCrit.update_criticalities
    rw [hall]
  rw [hmain, hold_crit_loop_some ha lk _ _ netlist.pins st hsucc]
  refine ⟨_, rfl, rfl, ?_⟩
  intro p hp n hn
  show pwrites (hold_pin_crit_val ha lk _ _) netlist.pins st.pin_criticalities p = _
  rw [pwrites_mem _ _ _ _ hp]
  unfold hold_pin_crit_val
  rw [calc_pin_criticality_eq ha lk p n _ _ hn hscale (hts p hp n hn)]

/-- C5: in HoldSlackCrit::update_criticalities, with worst_slack the global
minimum and best_slack the global maximum over all hold-slack tag times of
all graph nodes, scale = 1/|best - worst| and shift = -worst, each pin's
stored criticality is the running maximum (from 0) over its node's
hold-slack tags of 1 - scale*(slack + shift); instantiated on slacks
{-2, 3} by the witness, giving criticalities 1 and 0. -/
theorem C5_hold_scale_shift_normalization (st : HoldSlackCrit) (g : TimingGraph)
    (netlist : AtomNetlist) (ha : HoldTimingAnalyzer) (lk : AtomLookup) (w b : ℚ)
    (hw : w ∈ all_hold_slacks g ha)
    (hwlb : ∀ x ∈ all_hold_slacks g ha, w ≤ x)
    (hb : b ∈ all_hold_slacks g ha)
    (hbub : ∀ x ∈ all_hold_slacks g ha, x ≤ b)
    (htotal : ∀ p ∈ netlist.pins, (lk.atom_pin_tnode p).isSome)
    (hmem : ∀ p ∈ netlist.pins, ∀ n, lk.atom_pin_tnode p = some n → n ∈ g.nodes) :
    ∃ st2, st.update_criticalities g netlist ha lk = some st2 ∧
      ∀ p ∈ netlist.pins, ∀ n, lk.atom_pin_tnode p = some n →
        st2.pin_criticalities p =
          FVal.val (hold_crit_formula (1 / |b - w|) (-w) (ha.hold_slacks n)) := by
  rcases hall : all_hold_slacks g ha with _ | ⟨s0, rest⟩
  · rw [hall] at hw
    cases hw
  · rw [hall] at hw hwlb hb hbub
    have hwe : w = rest.foldl min s0 := by
      refine le_antisymm ?_ ?_
      · rcases foldl_min_mem rest s0 with h | h
        · rw [h]
          exact hwlb s0 (List.mem_cons_self s0 rest)
        · exact hwlb _ (List.mem_cons_of_mem s0 h)
      · rcases List.mem_cons.mp hw with h | h
        · rw [h]
          exact foldl_min_le_init rest s0
        · exact foldl_min_le_mem rest s0 w h
    have hbe : b = rest.foldl max s0 := by
      refine le_antisymm ?_ ?_
      · rcases List.mem_cons.mp hb with h | h
        · rw [h]
          exact foldl_max_ge_init rest s0
        · exact foldl_max_ge_mem rest s0 b h
      · rcases foldl_max_mem rest s0 with h | h
        · rw [h]
          exact hbub s0 (List.mem_cons_self s0 rest)
        · exact hbub _ (List.mem_cons_of_mem s0 h)
    rcases hold_crit_update_nonempty st g netlist ha lk s0 rest hall htotal hmem with
      ⟨st2, heq, hsl, hchar⟩
    refine ⟨st2, heq, ?_⟩
    rw [hwe, hbe]
    exact hchar

/-- C10: after the hold update, every pin whose node carries no hold-slack
tags has criticality exactly 0 (the running maximum starts at 0) even though
its hold slack is +infinity, and no stored hold criticality is below 0 (a
negative tag criticality cannot drag the maximum under its start). -/
theorem C10_tagless_pins_zero_criticality (st : HoldSlackCrit) (g : TimingGraph)
    (netlist : AtomNetlist) (ha : HoldTimingAnalyzer) (lk : AtomLookup)
    (htotal : ∀ p ∈ netlist.pins, (lk.atom_pin_tnode p).isSome)
    (hmem : ∀ p ∈ netlist.pins, ∀ n, lk.atom_pin_tnode p = some n → n ∈ g.nodes) :
    ∃ st2, st.update_slacks_and_criticalities g netlist ha lk = some st2 ∧
      (∀ p ∈ netlist.pins, ∀ n, lk.atom_pin_tnode p = some n →
        ha.hold_slacks n = [] →
        st2.pin_slacks p = FVal.inf ∧ st2.pin_criticalities p = FVal.val 0) ∧
      (∀ p ∈ netlist.pins, ∃ c : ℚ, st2.pin_criticalities p = FVal.val c ∧ 0 ≤ c) := by
  have hs1 := hold_slacks_loop_some ha lk netlist.pins st htotal
  set st1 : HoldSlackCrit :=
    { st with pin_slacks := pwrites (hold_pin_slack_val ha lk) netlist.pins st.pin_slacks }
    with hst1
  have hmain : st.update_slacks_and_criticalities g netlist ha lk =
      st1.update_criticalities g netlist ha lk := by
    unfold HoldSlackCrit.update_slacks_and_criticalities HoldSlackCrit.update_slacks
    rw [hs1]
  have hslack1 : ∀ p ∈ netlist.pins, ∀ n, lk.atom_pin_tnode p = some n →
      ha.hold_slacks n = [] → st1.pin_slacks p = FVal.inf := by
    intro p hp n hn hempty
    show pwrites (hold_pin_slack_val ha lk) netlist.pins st.pin_slacks p = FVal.inf
    rw [pwrites_mem _ _ _ _ hp]
    unfold hold_pin_slack_val
    rw [hn]
    exact min_tag_val_inf (ha.hold_slacks n) hempty
  rcases hall : all_hold_slacks g ha with _ | ⟨s0, rest⟩
  · have hcrit : st1.update_criticalities g netlist ha lk =
        hold_crit_empty_loop netlist.pins st1 lk := by
      unfold HoldSlackCrit.update_criticalities
      rw [hall]
    rw [hmain, hcrit, hold_crit_empty_loop_some lk netlist.pins st1 htotal]
    refine ⟨_, rfl, ?_, ?_⟩
    · intro p hp n hn hempty
      refine ⟨hslack1 p hp n hn hempty, ?_⟩
      show pwrites (fun _ => FVal.val 0) netlist.pins st1.pin_criticalities p = _
      rw [pwrites_mem _ _ _ _ hp]
    · intro p hp
      refine ⟨0, ?_, le_refl 0⟩
      show pwrites (fun _ => FVal.val 0) netlist.pins st1.pin_criticalities p = _
      rw [pwrites_mem _ _ _ _ hp]
  · rcases hold_crit_update_nonempty st1 g netlist ha lk s0 rest hall htotal hmem with
      ⟨st2, heq, hsl, hchar⟩
    refine ⟨st2, by rw [hmain]; exact heq, ?_, ?_⟩
    · intro p hp n hn hempty
      constructor
      · rw [hsl]
        exact hslack1 p hp n hn hempty
      · rw [hchar p hp n hn, hempty]
        rfl
    · intro p hp
      rcases Option.isSome_iff_exists.mp (htotal p hp) with ⟨n, hn⟩
      exact ⟨_, hchar p hp n hn, hold_crit_formula_nonneg _ _ _⟩

/-- C4 counterexample: a pin never touched by any recompute keeps the
constructor's NaN, which is not a value in [0, 1] — here the first call
takes the cheap path (both fresh aggregates are empty, matching the stored
ones) with an empty modified set, so nothing is written. -/
theorem C4_counterexample :
    ¬ inRange01 ((SetupSlackCrit.init.update_slacks_and_criticalities
      ⟨[], []⟩ ⟨fun _ => [], fun _ => [], []⟩
      wit_lookup_id).pin_criticalities 0) := by
  rintro ⟨q, hq, h0, h1⟩
  have : FVal.nan = FVal.val q := hq
  cases this

/-- C4 amended: every criticality value the update writes lies in [0, 1]
(for setup under the analyzer-consistency facts valid_setup_tag; for hold
always), so after an update every netlist pin whose criticality was either
recomputed in this call or already in [0, 1] is in [0, 1]; a pin never yet
computed retains NaN (see the counterexample). -/
theorem C4_amended_criticalities_in_unit_range (sst : SetupSlackCrit)
    (g : TimingGraph) (an : SetupTimingAnalyzer) (lk : AtomLookup)
    (netlist : AtomNetlist) (hst : HoldSlackCrit) (gh : TimingGraph)
    (nlh : AtomNetlist) (ha : HoldTimingAnalyzer) (lkh : AtomLookup)
    (hinj : ∀ n1 n2 q, lk.tnode_atom_pin n1 = some q → lk.tnode_atom_pin n2 = some q → n1 = n2)
    (hvalid : ∀ n, (n ∈ g.nodes ∨ n ∈ an.modified_nodes) → ∀ tag ∈ an.setup_slacks n,
      valid_setup_tag (compute_max_req g an) (compute_worst_slack g an) tag)
    (hcover : ∀ p ∈ netlist.pins, inRange01 (sst.pin_criticalities p) ∨
      ∃ n, lk.tnode_atom_pin n = some p ∧ n ∈ g.nodes ∧ n ∈ an.modified_nodes)
    (htotal : ∀ p ∈ nlh.pins, (lkh.atom_pin_tnode p).isSome)
    (hmemh : ∀ p ∈ nlh.pins, ∀ n, lkh.atom_pin_tnode p = some n → n ∈ gh.nodes) :
    (∀ p ∈ netlist.pins,
      inRange01 ((sst.update_slacks_and_criticalities g an lk).pin_criticalities p)) ∧
    (∃ st2, hst.update_slacks_and_criticalities gh nlh ha lkh = some st2 ∧
      ∀ p ∈ nlh.pins, inRange01 (st2.pin_criticalities p)) := by
  constructor
  · have harr : (sst.update_slacks_and_criticalities g an lk).pin_criticalities =
        writes lk.tnode_atom_pin
          (fun n => FVal.val (calc_relaxed_criticality (compute_max_req g an)
            (compute_worst_slack g an) (an.setup_slacks n)))
          (if compute_max_req g an = sst.prev_max_req ∧
              compute_worst_slack g an = sst.prev_worst_slack
           then an.modified_nodes else g.nodes)
          sst.pin_criticalities := by
      unfold SetupSlackCrit.update_slacks_and_criticalities
      rw [update_slacks_spec, update_criticalities_spec]
    intro p hp
    rw [harr]
    set NS := (if compute_max_req g an = sst.prev_max_req ∧
        compute_worst_slack g an = sst.prev_worst_slack
      then an.modified_nodes else g.nodes) with hNSdef
    have hNSsub : ∀ n ∈ NS, n ∈ g.nodes ∨ n ∈ an.modified_nodes := by
      intro n hn
      rw [hNSdef] at hn
      by_cases hc : compute_max_req g an = sst.prev_max_req ∧
          compute_worst_slack g an = sst.prev_worst_slack
      · rw [if_pos hc] at hn
        exact Or.inr hn
      · rw [if_neg hc] at hn
        exact Or.inl hn
    have hNSboth : ∀ n, n ∈ g.nodes → n ∈ an.modified_nodes → n ∈ NS := by
      intro n h1 h2
      rw [hNSdef]
      by_cases hc : compute_max_req g an = sst.prev_max_req ∧
          compute_worst_slack g an = sst.prev_worst_slack
      · rw [if_pos hc]
        exact h2
      · rw [if_neg hc]
        exact h1
    by_cases hex : ∃ n ∈ NS, lk.tnode_atom_pin n = some p
    · rcases hex with ⟨n, hn, hpn⟩
      rw [writes_mem _ _ _ _ n p hinj hn hpn]
      rcases calc_relaxed_criticality_range _ _ _ (hvalid n (hNSsub n hn)) with ⟨h0, h1⟩
      exact ⟨_, rfl, h0, h1⟩
    · have hframe : ∀ n ∈ NS, lk.tnode_atom_pin n ≠ some p :=
        fun n hn hc => hex ⟨n, hn, hc⟩
      rw [writes_frame _ _ _ _ p hframe]
      rcases hcover p hp with hr | ⟨n, hpn, hg, hm⟩
      · exact hr
      · exact absurd ⟨n, hNSboth n hg hm, hpn⟩ hex
  · have hs1 := hold_slacks_loop_some ha lkh nlh.pins hst htotal
    set st1 : HoldSlackCrit :=
      { hst with pin_slacks := pwrites (hold_pin_slack_val ha lkh) nlh.pins hst.pin_slacks }
      with hst1
    have hmain : hst.update_slacks_and_criticalities gh nlh ha lkh =
        st1.update_criticalities gh nlh ha lkh := by
      unfold HoldSlackCrit.update_slacks_and_criticalities HoldSlackCrit.update_slacks
      rw [hs1]
    rcases hall : all_hold_slacks gh ha with _ | ⟨s0, rest⟩
    · have hcrit : st1.update_criticalities gh nlh ha lkh =
          hold_crit_empty_loop nlh.pins st1 lkh := by
        unfold HoldSlackCrit.update_criticalities
        rw [hall]
      rw [hmain, hcrit, hold_crit_empty_loop_some lkh nlh.pins st1 htotal]
      refine ⟨_, rfl, ?_⟩
      intro p hp
      refine ⟨0, ?_, le_refl 0, zero_le_one⟩
      show pwrites (fun _ => FVal.val 0) nlh.pins st1.pin_criticalities p = _
      rw [pwrites_mem _ _ _ _ hp]
    · rcases hold_crit_update_nonempty st1 gh nlh ha lkh s0 rest hall htotal hmemh with
        ⟨st2, heq, hsl, hchar⟩
      refine ⟨st2, by rw [hmain]; exact heq, ?_⟩
      intro p hp
      rcases Option.isSome_iff_exists.mp (htotal p hp) with ⟨n, hn⟩
      refine ⟨_, hchar p hp n hn, hold_crit_formula_nonneg _ _ _, ?_⟩
      refine hold_crit_formula_le_one _ _ _ (one_div_nonneg.mpr (abs_nonneg _)) ?_
      intro t ht
      rw [neg_neg]
      exact hold_scan_lb gh ha s0 rest hall n (hmemh p hp n hn) t ht

/-- SetupSlackCrit::update_slacks_and_criticalities, fully characterized:
slack writes along the modified nodes, criticality writes along the branch-
selected node range (the branch reads the previous aggregates, which
update_slacks does not touch), raw pin projections recorded, fresh
aggregates stored. -/
theorem update_sc_spec (st : SetupSlackCrit) (g : TimingGraph)
    (an : SetupTimingAnalyzer) (lk : AtomLookup) :
    st.update_slacks_and_criticalities g an lk =
      { st with
        pin_slacks := (writes lk.tnode_atom_pin (setup_slack_val an)
          an.modified_nodes st.pin_slacks),
        pin_criticalities := (writes lk.tnode_atom_pin
          (fun n => FVal.val (calc_relaxed_criticality (compute_max_req g an)
            (compute_worst_slack g an) (an.setup_slacks n)))
          (if compute_max_req g an = st.prev_max_req ∧
              compute_worst_slack g an = st.prev_worst_slack
           then an.modified_nodes else g.nodes)
          st.pin_criticalities),
        pins_with_modified_slacks := nodes_to_pins an.modified_nodes lk,
        pins_with_modified_criticalities := (nodes_to_pins
          (if compute_max_req g an = st.prev_max_req ∧
              compute_worst_slack g an = st.prev_worst_slack
           then an.modified_nodes else g.nodes) lk),
        prev_max_req := compute_max_req g an,
        prev_worst_slack := compute_worst_slack g an } := by
  unfold SetupSlackCrit.update_slacks_and_criticalities
  rw [update_slacks_spec, update_criticalities_spec]

/-- C8 counterexample: two consecutive identical calls need not report the
same modified-criticality pin sequence — from a fresh state the first call
takes the full-recompute path (all graph nodes), the second the incremental
path (the empty modified set), so the reported sequences differ. -/
theorem C8_counterexample :
    ((SetupSlackCrit.init.update_slacks_and_criticalities wit_g_setup wit_an_quiet
        wit_lookup_id).update_slacks_and_criticalities wit_g_setup wit_an_quiet
        wit_lookup_id).pins_with_modified_criticalities ≠
      (SetupSlackCrit.init.update_slacks_and_criticalities wit_g_setup wit_an_quiet
        wit_lookup_id).pins_with_modified_criticalities := by
  decide

/-- C8 amended: with every modified node in the graph and an injective
node-to-pin map, a second identical call is idempotent on the slack and
criticality arrays and on the modified-slack pin sequence, and its
modified-criticality sequence is the raw pin projection of that call's
modified nodes; the first call's modified-criticality sequence may instead
cover the whole graph (full-recompute path, see the counterexample). -/
theorem C8_amended_idempotence (st : SetupSlackCrit) (g : TimingGraph)
    (an : SetupTimingAnalyzer) (lk : AtomLookup)
    (hinj : ∀ n1 n2 q, lk.tnode_atom_pin n1 = some q → lk.tnode_atom_pin n2 = some q → n1 = n2)
    (hmod : ∀ n ∈ an.modified_nodes, n ∈ g.nodes) :
    (∀ p, ((st.update_slacks_and_criticalities g an lk).update_slacks_and_criticalities
        g an lk).pin_slacks p =
      (st.update_slacks_and_criticalities g an lk).pin_slacks p) ∧
    (∀ p, ((st.update_slacks_and_criticalities g an lk).update_slacks_and_criticalities
        g an lk).pin_criticalities p =
      (st.update_slacks_and_criticalities g an lk).pin_criticalities p) ∧
    ((st.update_slacks_and_criticalities g an lk).update_slacks_and_criticalities
        g an lk).pins_with_modified_slacks =
      (st.update_slacks_and_criticalities g an lk).pins_with_modified_slacks ∧
    ((st.update_slacks_and_criticalities g an lk).update_slacks_and_criticalities
        g an lk).pins_with_modified_criticalities =
      nodes_to_pins an.modified_nodes lk := by
  have h1 := update_sc_spec st g an lk
  have h2 := update_sc_spec (st.update_slacks_and_criticalities g an lk) g an lk
  have hcond : compute_max_req g an =
      (st.update_slacks_and_criticalities g an lk).prev_max_req ∧
      compute_worst_slack g an =
      (st.update_slacks_and_criticalities g an lk).prev_worst_slack := by
    rw [h1]
    exact ⟨rfl, rfl⟩
  refine ⟨?_, ?_, ?_, ?_⟩
  · intro p
    have e2 : ((st.update_slacks_and_criticalities g an lk).update_slacks_and_criticalities
        g an lk).pin_slacks p =
        writes lk.tnode_atom_pin (setup_slack_val an) an.modified_nodes
          (st.update_slacks_and_criticalities g an lk).pin_slacks p := by
      rw [h2]
    have e1 : (st.update_slacks_and_criticalities g an lk).pin_slacks p =
        writes lk.tnode_atom_pin (setup_slack_val an) an.modified_nodes
          st.pin_slacks p := by
      rw [h1]
    by_cases hex : ∃ n ∈ an.modified_nodes, lk.tnode_atom_pin n = some p
    · rcases hex with ⟨n, hn, hpn⟩
      rw [e2, writes_mem _ _ _ _ n p hinj hn hpn, e1,
        writes_mem _ _ _ _ n p hinj hn hpn]
    · have hframe : ∀ n ∈ an.modified_nodes, lk.tnode_atom_pin n ≠ some p :=
        fun n hn hc => hex ⟨n, hn, hc⟩
      rw [e2, writes_frame _ _ _ _ p hframe]
  · intro p
    have e2 : ((st.update_slacks_and_criticalities g an lk).update_slacks_and_criticalities
        g an lk).pin_criticalities p =
        writes lk.tnode_atom_pin
          (fun n => FVal.val (calc_relaxed_criticality (compute_max_req g an)
            (compute_worst_slack g an) (an.setup_slacks n)))
          an.modified_nodes
          (st.update_slacks_and_criticalities g an lk).pin_criticalities p := by
      rw [h2]
      show writes _ _
        (if compute_max_req g an =
            (st.update_slacks_and_criticalities g an lk).prev_max_req ∧
            compute_worst_slack g an =
            (st.update_slacks_and_criticalities g an lk).prev_worst_slack
         then an.modified_nodes else g.nodes) _ p = _
      rw [if_pos hcond]
    by_cases hex : ∃ n ∈ an.modified_nodes, lk.tnode_atom_pin n = some p
    · rcases hex with ⟨n, hn, hpn⟩
      rw [e2, writes_mem _ _ _ _ n p hinj hn hpn]
      have hNS1 : n ∈ (if compute_max_req g an = st.prev_max_req ∧
          compute_worst_slack g an = st.prev_worst_slack
        then an.modified_nodes else g.nodes) := by
        by_cases hc : compute_max_req g an = st.prev_max_req ∧
            compute_worst_slack g an = st.prev_worst_slack
        · rw [if_pos hc]
          exact hn
        · rw [if_neg hc]
          exact hmod n hn
      have e1 : (st.update_slacks_and_criticalities g an lk).pin_criticalities p =
          FVal.val (calc_relaxed_criticality (compute_max_req g an)
            (compute_worst_slack g an) (an.setup_slacks n)) := by
        rw [h1]
        show writes _ _ (if compute_max_req g an = st.prev_max_req ∧
            compute_worst_slack g an = st.prev_worst_slack
          then an.modified_nodes else g.nodes) _ p = _
        exact writes_mem _ _ _ _ n p hinj hNS1 hpn
      rw [e1]
    · have hframe : ∀ n ∈ an.modified_nodes, lk.tnode_atom_pin n ≠ some p :=
        fun n hn hc => hex ⟨n, hn, hc⟩
      rw [e2, writes_frame _ _ _ _ p hframe]
  · rw [h2, h1]
  · rw [h2]
    show nodes_to_pins
      (if compute_max_req g an =
          (st.update_slacks_and_criticalities g an lk).prev_max_req ∧
          compute_worst_slack g an =
          (st.update_slacks_and_criticalities g an lk).prev_worst_slack
       then an.modified_nodes else g.nodes) lk = _
    rw [if_pos hcond]

/-! ## Witnesses -/

/-- C1 witness: on the one-node fixture, the fresh aggregates differ from
the empty stored ones, so the full path recomputes node 0's pin. -/
theorem C1_witness :
    (SetupSlackCrit.init.update_criticalities wit_g_setup wit_an_active
      wit_lookup_id).pin_criticalities 0 =
      FVal.val (calc_relaxed_criticality (compute_max_req wit_g_setup wit_an_active)
        (compute_worst_slack wit_g_setup wit_an_active) (wit_an_active.setup_slacks 0)) :=
  (C1_incremental_or_full_recompute SetupSlackCrit.init wit_g_setup wit_an_active
    wit_lookup_id
    (fun n1 n2 q h1 h2 => by
      have e1 : n1 = q := Option.some_injective _ h1
      have e2 : n2 = q := Option.some_injective _ h2
      rw [e1, e2])).2
    ⟨⟨0, 0⟩, Or.inl (by decide)⟩ 0 (by decide) 0 rfl

/-- C2 witness: on the one-node fixture, the aggregates differ from the
stored ones, so pin 0 (node 0) is freshly recomputed. -/
theorem C2_witness :
    (SetupSlackCrit.init.update_criticalities wit_g_setup wit_an_active
      wit_lookup_id).pin_criticalities 0 =
      FVal.val (calc_relaxed_criticality (compute_max_req wit_g_setup wit_an_active)
        (compute_worst_slack wit_g_setup wit_an_active) (wit_an_active.setup_slacks 0)) :=
  (C2_retention_and_global_recompute SetupSlackCrit.init wit_g_setup wit_an_active
    wit_lookup_id
    (fun p n h => by
      have e : p = n := Option.some_injective _ h
      rw [e]
      rfl)
    (fun n p h => by
      have e : n = p := Option.some_injective _ h
      rw [e]
      rfl)).2
    ⟨⟨0, 0⟩, Or.inl (by decide)⟩ 0 0 rfl (by decide)

/-- C3 witness: with the identity lookup and modified node 0, the recorded
modified-slack pins are exactly the projection, valid and duplicate-free. -/
theorem C3_witness :
    (SetupSlackCrit.init.update_slacks wit_an_active
        wit_lookup_id).pins_with_modified_slacks =
      wit_an_active.modified_nodes.map wit_lookup_id.tnode_atom_pin ∧
    (∀ x ∈ (SetupSlackCrit.init.update_slacks wit_an_active
        wit_lookup_id).pins_with_modified_slacks, x.isSome) ∧
    (SetupSlackCrit.init.update_slacks wit_an_active
        wit_lookup_id).pins_with_modified_slacks.Nodup :=
  C3_amended_modified_slack_pins SetupSlackCrit.init wit_an_active wit_lookup_id
    (by decide)
    (fun n1 n2 q h1 h2 => by
      have e1 : n1 = q := Option.some_injective _ h1
      have e2 : n2 = q := Option.some_injective _ h2
      rw [e1, e2])
    (by decide)

/-- C4 witness: on the concrete fixtures both the setup and the hold update
leave every netlist pin's criticality in [0, 1]. -/
theorem C4_witness :
    (∀ p ∈ wit_netlist1.pins,
      inRange01 ((SetupSlackCrit.init.update_slacks_and_criticalities wit_g_setup
        wit_an_active wit_lookup_id).pin_criticalities p)) ∧
    (∃ st2, HoldSlackCrit.init.update_slacks_and_criticalities wit_g_hold
        wit_netlist_hold wit_an_hold wit_lookup_id = some st2 ∧
      ∀ p ∈ wit_netlist_hold.pins, inRange01 (st2.pin_criticalities p)) :=
  C4_amended_criticalities_in_unit_range SetupSlackCrit.init wit_g_setup wit_an_active
    wit_lookup_id wit_netlist1 HoldSlackCrit.init wit_g_hold wit_netlist_hold
    wit_an_hold wit_lookup_id
    (fun n1 n2 q h1 h2 => by
      have e1 : n1 = q := Option.some_injective _ h1
      have e2 : n2 = q := Option.some_injective _ h2
      rw [e1, e2])
    (by
      intro n hn tag ht
      have hn0 : n = 0 := by
        rcases hn with h | h <;> simpa [wit_g_setup, wit_an_active] using h
      subst hn0
      have ht0 : tag = ⟨0, 0, 1⟩ := by simpa [wit_an_active] using ht
      subst ht0
      exact ⟨2, 1, by decide, by decide, by decide, by decide, by decide⟩)
    (by
      intro p hp
      have hp0 : p = 0 := by simpa [wit_netlist1] using hp
      subst hp0
      exact Or.inr ⟨0, rfl, by decide, by decide⟩)
    (by decide)
    (fun p hp n hn => by
      have e : p = n := Option.some_injective _ hn
      rw [← e]
      exact hp)

/-- C5 witness: the spec's example — hold slacks {-2, 3} give worst = -2,
best = 3, scale = 1/5, shift = 2, criticality 1 at the pin with slack -2 and
0 at the pin with slack 3. -/
theorem C5_witness :
    ∃ st2, HoldSlackCrit.init.update_criticalities wit_g_hold wit_netlist_hold
        wit_an_hold wit_lookup_id = some st2 ∧
      st2.pin_criticalities 0 = FVal.val 1 ∧ st2.pin_criticalities 1 = FVal.val 0 := by
  rcases C5_hold_scale_shift_normalization HoldSlackCrit.init wit_g_hold
      wit_netlist_hold wit_an_hold wit_lookup_id (-2) 3 (by decide) (by decide)
      (by decide) (by decide) (by decide)
      (fun p hp n hn => by
        have e : p = n := Option.some_injective _ hn
        rw [← e]
        exact hp) with ⟨st2, heq, hchar⟩
  refine ⟨st2, heq, ?_, ?_⟩
  · rw [hchar 0 (by decide) 0 rfl]
    norm_num [hold_crit_formula, wit_an_hold]
  · rw [hchar 1 (by decide) 1 rfl]
    norm_num [hold_crit_formula, wit_an_hold]

/-- C8 witness: on the one-node fixture with modified node 0, a second
identical call is idempotent on the arrays and the modified-slack sequence,
and reports the modified-criticality pins of its own modified set. -/
theorem C8_witness :
    (∀ p, ((SetupSlackCrit.init.update_slacks_and_criticalities wit_g_setup
        wit_an_active wit_lookup_id).update_slacks_and_criticalities wit_g_setup
        wit_an_active wit_lookup_id).pin_slacks p =
      (SetupSlackCrit.init.update_slacks_and_criticalities wit_g_setup wit_an_active
        wit_lookup_id).pin_slacks p) ∧
    (∀ p, ((SetupSlackCrit.init.update_slacks_and_criticalities wit_g_setup
        wit_an_active wit_lookup_id).update_slacks_and_criticalities wit_g_setup
        wit_an_active wit_lookup_id).pin_criticalities p =
      (SetupSlackCrit.init.update_slacks_and_criticalities wit_g_setup wit_an_active
        wit_lookup_id).pin_criticalities p) ∧
    (((SetupSlackCrit.init.update_slacks_and_criticalities wit_g_setup wit_an_active
        wit_lookup_id).update_slacks_and_criticalities wit_g_setup wit_an_active
        wit_lookup_id).pins_with_modified_slacks =
      (SetupSlackCrit.init.update_slacks_and_criticalities wit_g_setup wit_an_active
        wit_lookup_id).pins_with_modified_slacks) ∧
    ((SetupSlackCrit.init.update_slacks_and_criticalities wit_g_setup wit_an_active
        wit_lookup_id).update_slacks_and_criticalities wit_g_setup wit_an_active
        wit_lookup_id).pins_with_modified_criticalities =
      nodes_to_pins wit_an_active.modified_nodes wit_lookup_id :=
  C8_amended_idempotence SetupSlackCrit.init wit_g_setup wit_an_active wit_lookup_id
    (fun n1 n2 q h1 h2 => by
      have e1 : n1 = q := Option.some_injective _ h1
      have e2 : n2 = q := Option.some_injective _ h2
      rw [e1, e2])
    (by decide)

/-- C10 witness: pin 2's node carries no hold tags — its slack becomes
+infinity while its criticality becomes exactly 0. -/
theorem C10_witness :
    ∃ st2, HoldSlackCrit.init.update_slacks_and_criticalities wit_g_hold3
        wit_netlist_hold3 wit_an_hold wit_lookup_id = some st2 ∧
      st2.pin_slacks 2 = FVal.inf ∧ st2.pin_criticalities 2 = FVal.val 0 := by
  rcases C10_tagless_pins_zero_criticality HoldSlackCrit.init wit_g_hold3
      wit_netlist_hold3 wit_an_hold wit_lookup_id (by decide)
      (fun p hp n hn => by
        have e : p = n := Option.some_injective _ hn
        rw [← e]
        exact hp) with ⟨st2, heq, hz, hnn⟩
  rcases hz 2 (by decide) 2 rfl rfl with ⟨hs, hc⟩
  exact ⟨st2, heq, hs, hc⟩
